import Mathlib

/-
Verification of the GLinq lazy stream library (pkg/glinq).

Part 1 is a pure denotational model of the pipeline nodes: a node is a
`GStream`, carrying the list of elements one fresh traversal yields
(`items`) and the cardinality hint (`size`).  The Go sources represent the
hint either as `size int` with `-1` meaning unknown (operators.go, kv.go) or
as `size *int` with `nil` meaning unknown (stream.go); both are embedded as
`Option Int`, `none` = unknown.  Each operator is translated from its Go
source; the pull-loop of an operator corresponds to the list transformation
of a full traversal.

Part 2 (further below) is a stateful cursor model for the claims about
pull functions and re-traversability.
-/

namespace glinq

/-- A pipeline node: the elements a fresh full traversal yields, and the
cardinality hint (`none` models Go `size == -1` / `size == nil`). -/
structure GStream (α : Type) where
  items : List α
  size : Option Int
deriving DecidableEq, Repr

/-- From (stream.go 271-288): wraps a slice, hint = length of the slice. -/
def From {α : Type} (slice : List α) : GStream α :=
  { items := slice, size := some (slice.length : Int) }

/-- FromSafe (stream.go 303-324): same as From after a defensive copy. -/
def FromSafe {α : Type} (slice : List α) : GStream α :=
  From slice

/-- Empty (stream.go 326-338): no elements, hint Known(0). -/
def Empty {α : Type} : GStream α :=
  { items := [], size := some 0 }

/-- Range (stream.go 340-356): integers start .. start+count-1; the pull
function yields while `index < count`, and `size: &count` stores the count
as given, including a negative one. -/
def Range (start count : Int) : GStream Int :=
  { items := (List.range count.toNat).map (fun i : Nat => start + (i : Int)),
    size := some count }

/-- Where (operators.go 263-282): keeps elements passing the predicate,
hint lost (`size: -1`). -/
def Where {α : Type} (predicate : α → Bool) (s : GStream α) : GStream α :=
  { items := s.items.filter predicate, size := none }

/-- Select, method form (operators.go 295-310) and free form
(operators.go 355-375): 1-to-1 map, hint preserved (the free form copies the
size when the argument is Sizable with a known size, which for a stream
argument is the same rule). -/
def Select {α β : Type} (mapper : α → β) (s : GStream α) : GStream β :=
  { items := s.items.map mapper, size := s.size }

/-- SelectWithIndex (operators.go 323-341, 389-412): map with a fresh
0-based counter, hint preserved. -/
def SelectWithIndex {α β : Type} (mapper : α → Nat → β) (s : GStream α) : GStream β :=
  { items := s.items.mapIdx (fun i v => mapper v i), size := s.size }

/-- Take (operators.go 418-454): n < 0 gives Empty; otherwise the pull
function stops after n elements and the hint is min(parent, n) when the
parent hint is known, else n. -/
def Take {α : Type} (n : Int) (s : GStream α) : GStream α :=
  if n < 0 then Empty
  else
    { items := s.items.take n.toNat,
      size := match s.size with
        | some m => some (min m n)
        | none => some n }

/-- Skip (operators.go 460-498): n < 0 treated as 0; if the parent hint is
known and n reaches it the result is Empty; otherwise drop the first n
elements, hint = clamped difference when known. -/
def Skip {α : Type} (n : Int) (s : GStream α) : GStream α :=
  let n2 := max n 0
  match s.size with
  | some m =>
      if n2 ≥ m then Empty
      else { items := s.items.drop n2.toNat, size := some (max (m - n2) 0) }
  | none => { items := s.items.drop n2.toNat, size := none }

/-- TakeWhile (operators.go 504-533): yields while the predicate holds,
then stops for good; hint lost. -/
def TakeWhile {α : Type} (predicate : α → Bool) (s : GStream α) : GStream α :=
  { items := s.items.takeWhile predicate, size := none }

/-- SkipWhile (operators.go 539-565): drops the longest prefix where the
predicate holds; hint lost. -/
def SkipWhile {α : Type} (predicate : α → Bool) (s : GStream α) : GStream α :=
  { items := s.items.dropWhile predicate, size := none }

/-- Concat (set.go 7-37): elements of the first stream then of the other
enumerable; hint = sum when both are known, else lost. -/
def Concat {α : Type} (s other : GStream α) : GStream α :=
  { items := s.items ++ other.items,
    size := match s.size, other.size with
      | some a, some b => some (a + b)
      | _, _ => none }

/-- Seen-set filtering loop shared by Distinct/DistinctBy/Union (the Go
`seen map[K]bool`): keeps an element iff its key was not seen before. -/
def dedupByLoop {α κ : Type} [DecidableEq κ] (key : α → κ) (seen : List κ) :
    List α → List α
  | [] => []
  | x :: xs =>
      if key x ∈ seen then dedupByLoop key seen xs
      else x :: dedupByLoop key (key x :: seen) xs

/-- Distinct (distinct.go 8-30): removes duplicates, keeping first
occurrences; hint lost. -/
def Distinct {α : Type} [DecidableEq α] (enum : GStream α) : GStream α :=
  { items := dedupByLoop id [] enum.items, size := none }

/-- DistinctBy (distinct.go 35-59): removes elements with an already-seen
projected key; hint lost. -/
def DistinctBy {α κ : Type} [DecidableEq κ] (keySelector : α → κ) (s : GStream α) :
    GStream α :=
  { items := dedupByLoop keySelector [] s.items, size := none }

/-- Union (set.go 53-85): streams e1 then e2 against a single seen-set;
hint lost. -/
def Union {α : Type} [DecidableEq α] (e1 e2 : GStream α) : GStream α :=
  { items := dedupByLoop id [] (e1.items ++ e2.items), size := none }

/-- Intersect (set.go 94-125): materializes e2 as a membership set, then
emits unseen e1 elements that are members; hint lost. -/
def Intersect {α : Type} [DecidableEq α] (e1 e2 : GStream α) : GStream α :=
  { items := dedupByLoop id [] (e1.items.filter (fun v => v ∈ e2.items)),
    size := none }

/-- Except (set.go 134-165): materializes e2 as a membership set, then
emits unseen e1 elements that are not members; hint lost. -/
def Except {α : Type} [DecidableEq α] (e1 e2 : GStream α) : GStream α :=
  { items := dedupByLoop id [] (e1.items.filter (fun v => v ∉ e2.items)),
    size := none }

/-- SelectMany (operators.go 725-758): flattens the per-element
enumerables; hint lost.  The selector is modelled as producing the element
list of the enumerable it returns. -/
def SelectMany {α β : Type} (selector : α → List β) (s : GStream α) : GStream β :=
  { items := s.items.flatMap selector, size := none }

/-- Reverse (operators.go 702-708): materializes, reverses, rewraps with
From (so the hint is the materialized length). -/
def Reverse {α : Type} (s : GStream α) : GStream α :=
  From s.items.reverse

/-- The index the heapifyDown loop body (operators.go 576-596) selects:
`largest` after the two child comparisons at position i with bound n. -/
def heapTarget {α : Type} [Inhabited α] (less : α → α → Bool) (items : Array α)
    (i n : Nat) : Nat :=
  if 2 * i + 1 < n && less (items.getD i default) (items.getD (2 * i + 1) default) then
    if 2 * i + 2 < n && less (items.getD (2 * i + 1) default) (items.getD (2 * i + 2) default)
    then 2 * i + 2 else 2 * i + 1
  else
    if 2 * i + 2 < n && less (items.getD i default) (items.getD (2 * i + 2) default)
    then 2 * i + 2 else i

/-- The heapifyDown loop (operators.go 576-596), with its variant n - i as
an explicit structural counter (each iteration moves i to a strictly larger
index below n, so n - i iterations always suffice; `heapifyDown` below
supplies that count).  The loop ends when the selected index equals i,
otherwise it swaps and continues there. -/
def heapifyDownGo {α : Type} [Inhabited α] (less : α → α → Bool) :
    Nat → Array α → Nat → Nat → Array α
  | 0, items, _, _ => items
  | fuel + 1, items, i, n =>
    if heapTarget less items i n = i then items
    else
      heapifyDownGo less fuel
        ((items.setD i (items.getD (heapTarget less items i n) default)).setD
          (heapTarget less items i n) (items.getD i default))
        (heapTarget less items i n) n

/-- heapifyDown (operators.go 576-596): sift the element at i down inside
items[0:n], treating `less` as the heap's ordering. -/
def heapifyDown {α : Type} [Inhabited α] (less : α → α → Bool) (items : Array α)
    (i n : Nat) : Array α :=
  heapifyDownGo less (n - i) items i n

/-- buildHeap (operators.go 568-573): heapify from n/2-1 down to 0. -/
def buildHeap {α : Type} [Inhabited α] (less : α → α → Bool) (items : Array α) :
    Array α :=
  let n := items.size
  (List.range (n / 2)).foldl (fun arr j => heapifyDown less arr (n / 2 - 1 - j) n) items

/-- Model of Go sort.Slice with comparison `less` (operators.go 667-669):
sort.Slice reorders the slice with some comparison sort so that no later
element is `less` than an earlier one; it is modelled by a comparison sort
under the complement relation (which sort is used is unobservable for a
strict weak order). -/
def goSortSlice {α : Type} (less : α → α → Bool) (l : List α) : List α :=
  l.insertionSort (fun a b => less b a = false)

/-- TakeOrderedBy (operators.go 610-684): n ≤ 0 gives Empty; otherwise
buffer the first n elements, build a heap with the complement of `less`,
then for each remaining element replace the root when `less val root`,
re-sifting; finally sort with `less`.  The hint is min(source, n) when the
source size is known, else n. -/
def TakeOrderedBy {α : Type} [Inhabited α] (less : α → α → Bool) (n : Int)
    (enum : GStream α) : GStream α :=
  if n ≤ 0 then Empty
  else
    let size : Int :=
      match enum.size with
      | some s => if s < n then s else n
      | none => n
    let heap0 := (enum.items.take n.toNat).toArray
    let rest := enum.items.drop n.toNat
    let heap2 :=
      rest.foldl
        (fun h val =>
          if less val (h.getD 0 default) then
            heapifyDown (fun a b => !less a b) (h.setD 0 val) 0 h.size
          else h)
        (buildHeap (fun a b => !less a b) heap0)
    { items := if heap0.size = 0 then [] else goSortSlice less heap2.toList,
      size := some size }

/-- TakeOrderedDescendingBy (operators.go 694-696): TakeOrderedBy with the
complemented comparator. -/
def TakeOrderedDescendingBy {α : Type} [Inhabited α] (less : α → α → Bool) (n : Int)
    (enum : GStream α) : GStream α :=
  TakeOrderedBy (fun a b => !less a b) n enum

/-- One step of the GroupBy accumulation loop (kv.go 163-171):
`groups[key] = append(groups[key], elem)` on an association-list view of the
Go map (insertion order of keys retained internally). -/
def groupsInsert {α κ : Type} [DecidableEq κ] (g : List (κ × List α)) (k : κ)
    (v : α) : List (κ × List α) :=
  match g with
  | [] => [(k, [v])]
  | (k0, vs) :: rest =>
      if k0 = k then (k0, vs ++ [v]) :: rest else (k0, vs) :: groupsInsert rest k v

/-- The groups map GroupBy builds from the materialized source. -/
def groupsOf {α κ : Type} [DecidableEq κ] (keySelector : α → κ) (l : List α) :
    List (κ × List α) :=
  l.foldl (fun g x => groupsInsert g (keySelector x) x) []

/-- Lookup in the association-list view of the groups map. -/
def groupsFind {α κ : Type} [DecidableEq κ] (g : List (κ × List α)) (k : κ) :
    List α :=
  match g with
  | [] => []
  | (k0, vs) :: rest => if k0 = k then vs else groupsFind rest k

/-- GroupBy (kv.go 161-194): materializes the source into a key-indexed
map of groups, then emits (key, group) pairs by iterating the Go map with
`range`, whose order is unspecified; that enumeration order is the `order`
parameter (a realizable order is any permutation of the map's keys).  The
hint is the number of pairs. -/
def GroupByWith {α κ : Type} [DecidableEq κ] (keySelector : α → κ)
    (enum : GStream α) (order : List κ) : GStream (κ × List α) :=
  let pairs := order.map (fun k => (k, groupsFind (groupsOf keySelector enum.items) k))
  { items := pairs, size := some (pairs.length : Int) }

/-- Chunk sublist splitting with chunk size szm1+1 (the caller guarantees a
positive size, encoded as successor to make the recursion structural in the
consumed length). -/
def chunkListP {α : Type} (szm1 : Nat) : List α → List (List α)
  | [] => []
  | x :: xs => (x :: xs).take (szm1 + 1) :: chunkListP szm1 ((x :: xs).drop (szm1 + 1))
termination_by l => l.length
decreasing_by
  simp
  omega

/-- Chunk (kv.go 660-694): size ≤ 0 returns Go nil (modelled `none`);
otherwise the chunks.  When the source hint is known the result slice is
preallocated with make and is non-nil even when empty (`some chunks`); when
the hint is unknown the result remains nil unless a chunk was appended. -/
def Chunk {α : Type} (size : Int) (s : GStream α) : Option (List (List α)) :=
  if size ≤ 0 then none
  else
    let chunks := chunkListP (size.toNat - 1) s.items
    match s.size with
    | some _ => some chunks
    | none => match chunks with
      | [] => none
      | c :: cs => some (c :: cs)

/-- Count (kv.go 575-592): returns the stored hint when it is known,
otherwise traverses and counts. -/
def Count {α : Type} (s : GStream α) : Int :=
  match s.size with
  | some n => n
  | none => (s.items.length : Int)

/-- ToSlice (kv.go 550-565): materializes one fresh traversal. -/
def ToSlice {α : Type} (s : GStream α) : List α :=
  s.items

end glinq

/-- The exactness property the spec asserts for cardinality hints: a node
with hint Known(n) yields exactly n elements on a full traversal. -/
def hintExact {α : Type} (s : glinq.GStream α) : Prop :=
  match s.size with
  | none => True
  | some n => (s.items.length : Int) = n

/-
Part 2: stateful cursor model.

A pull function is an ephemeral cursor; `MCur` is the state of one live
cursor of the modelled pipeline (element type Int).  Each constructor
carries exactly the mutable locals the corresponding Go closure captures
(indices, counters, flags, seen-sets) plus the live cursors it pulls from.
One call of the Go pull closure is `next`; its inner skip-loops are driven
by an explicit budget (`nextF`'s first argument) which `next` instantiates
with a sufficient value (every loop iteration either consumes a parent
element or flips a one-shot phase flag, so `Wm c + hgt c + 1` always
suffices; the lemmas below never depend on the budget beyond that bound).
-/

/-- Cursor states of the pull closures (element type Int).  `fromC` is the
iterator of From (stream.go 274-285), `rangeC` of Range (stream.go
342-353), `emptyC` of Empty; the operator cursors carry the fresh locals
their factories create (operators.go, set.go, distinct.go) and the cursors
they pull from; `takeOrderedC` is the iterator over the materialized
sorted buffer (operators.go 671-680). -/
inductive MCur : Type where
  | fromC (data : List Int) (index : Nat)
  | rangeC (start count : Int) (index : Nat)
  | emptyC
  | whereC (pred : Int → Bool) (par : MCur)
  | selectC (f : Int → Int) (par : MCur)
  | selectIdxC (f : Int → Nat → Int) (index : Nat) (par : MCur)
  | takeC (n : Int) (count : Nat) (par : MCur)
  | skipC (n : Int) (skipped : Nat) (par : MCur)
  | takeWhileC (pred : Int → Bool) (stopped : Bool) (par : MCur)
  | skipWhileC (pred : Int → Bool) (skipping : Bool) (par : MCur)
  | distinctByC (key : Int → Int) (seen : List Int) (par : MCur)
  | concatC (firstExhausted : Bool) (par : MCur) (other : MCur)
  | unionC (seen : List Int) (secondStarted : Bool) (c1 c2 : MCur)
  | intersectC (otherSet : List Int) (seen : List Int) (child : MCur)
  | exceptC (otherSet : List Int) (seen : List Int) (child : MCur)
  | takeOrderedC (res : List Int) (index : Nat)

/-- Upper bound on the number of elements a cursor can still yield. -/
def msize : MCur → Nat
  | .fromC data i => data.length - i
  | .rangeC _ c i => c.toNat - i
  | .emptyC => 0
  | .whereC _ par => msize par
  | .selectC _ par => msize par
  | .selectIdxC _ _ par => msize par
  | .takeC _ _ par => msize par
  | .skipC _ _ par => msize par
  | .takeWhileC _ _ par => msize par
  | .skipWhileC _ _ par => msize par
  | .distinctByC _ _ par => msize par
  | .concatC _ par oth => msize par + msize oth
  | .unionC _ _ c1 c2 => msize c1 + msize c2
  | .intersectC _ _ child => msize child
  | .exceptC _ _ child => msize child
  | .takeOrderedC res i => res.length - i

/-- Number of pending one-shot phase switches (union's switch to its
second enumerable is the only loop iteration that consumes no element). -/
def switches : MCur → Nat
  | .fromC _ _ => 0
  | .rangeC _ _ _ => 0
  | .emptyC => 0
  | .whereC _ par => switches par
  | .selectC _ par => switches par
  | .selectIdxC _ _ par => switches par
  | .takeC _ _ par => switches par
  | .skipC _ _ par => switches par
  | .takeWhileC _ _ par => switches par
  | .skipWhileC _ _ par => switches par
  | .distinctByC _ _ par => switches par
  | .concatC _ par oth => switches par + switches oth
  | .unionC _ started c1 c2 =>
      (if started then 0 else 1) + switches c1 + switches c2
  | .intersectC _ _ child => switches child
  | .exceptC _ _ child => switches child
  | .takeOrderedC _ _ => 0

/-- Loop budget of a cursor: bound on element pulls plus phase switches. -/
def Wm (c : MCur) : Nat := msize c + switches c

/-- Structural height of a cursor (bound on pull-chain depth). -/
def hgt : MCur → Nat
  | .fromC _ _ => 1
  | .rangeC _ _ _ => 1
  | .emptyC => 1
  | .whereC _ par => hgt par + 1
  | .selectC _ par => hgt par + 1
  | .selectIdxC _ _ par => hgt par + 1
  | .takeC _ _ par => hgt par + 1
  | .skipC _ _ par => hgt par + 1
  | .takeWhileC _ _ par => hgt par + 1
  | .skipWhileC _ _ par => hgt par + 1
  | .distinctByC _ _ par => hgt par + 1
  | .concatC _ par oth => hgt par + hgt oth + 1
  | .unionC _ _ c1 c2 => hgt c1 + hgt c2 + 1
  | .intersectC _ _ child => hgt child + 1
  | .exceptC _ _ child => hgt child + 1
  | .takeOrderedC _ _ => 1

/-- One call of a pull closure, with an explicit recursion budget (first
argument); a call at budget 0 reports exhaustion (never reached from
`next`, which supplies a sufficient budget).  Each case is the body of the
corresponding Go closure; recursive calls on a parent cursor are the
`source()` / `Next()` pulls, recursive calls on the same constructor are
the closure's own loop iterations. -/
def nextF : Nat → MCur → Option Int × MCur
  | 0, c => (none, c)
  | fuel + 1, c =>
    match c with
    | .fromC data i =>
        match data.get? i with
        | some v => (some v, .fromC data (i + 1))
        | none => (none, .fromC data i)
    | .rangeC st cnt i =>
        if (i : Int) < cnt then (some (st + (i : Int)), .rangeC st cnt (i + 1))
        else (none, .rangeC st cnt i)
    | .emptyC => (none, .emptyC)
    | .whereC p par =>
        match nextF fuel par with
        | (none, par2) => (none, .whereC p par2)
        | (some v, par2) =>
            if p v then (some v, .whereC p par2)
            else nextF fuel (.whereC p par2)
    | .selectC f par =>
        match nextF fuel par with
        | (none, par2) => (none, .selectC f par2)
        | (some v, par2) => (some (f v), .selectC f par2)
    | .selectIdxC f i par =>
        match nextF fuel par with
        | (none, par2) => (none, .selectIdxC f i par2)
        | (some v, par2) => (some (f v i), .selectIdxC f (i + 1) par2)
    | .takeC n cnt par =>
        if (cnt : Int) ≥ n then (none, .takeC n cnt par)
        else
          match nextF fuel par with
          | (none, par2) => (none, .takeC n cnt par2)
          | (some v, par2) => (some v, .takeC n (cnt + 1) par2)
    | .skipC n sk par =>
        if (sk : Int) < n then
          match nextF fuel par with
          | (none, par2) => (none, .skipC n sk par2)
          | (some _, par2) => nextF fuel (.skipC n (sk + 1) par2)
        else
          match nextF fuel par with
          | (none, par2) => (none, .skipC n sk par2)
          | (some v, par2) => (some v, .skipC n sk par2)
    | .takeWhileC p stopped par =>
        if stopped then (none, .takeWhileC p true par)
        else
          match nextF fuel par with
          | (none, par2) => (none, .takeWhileC p false par2)
          | (some v, par2) =>
              if p v then (some v, .takeWhileC p false par2)
              else (none, .takeWhileC p true par2)
    | .skipWhileC p skipping par =>
        if skipping then
          match nextF fuel par with
          | (none, par2) => (none, .skipWhileC p true par2)
          | (some v, par2) =>
              if p v then nextF fuel (.skipWhileC p true par2)
              else (some v, .skipWhileC p false par2)
        else
          match nextF fuel par with
          | (none, par2) => (none, .skipWhileC p false par2)
          | (some v, par2) => (some v, .skipWhileC p false par2)
    | .distinctByC key seen par =>
        match nextF fuel par with
        | (none, par2) => (none, .distinctByC key seen par2)
        | (some v, par2) =>
            if key v ∈ seen then nextF fuel (.distinctByC key seen par2)
            else (some v, .distinctByC key (key v :: seen) par2)
    | .concatC fE par oth =>
        if fE then
          match nextF fuel oth with
          | (v, oth2) => (v, .concatC true par oth2)
        else
          match nextF fuel par with
          | (some v, par2) => (some v, .concatC false par2 oth)
          | (none, par2) =>
              match nextF fuel oth with
              | (v, oth2) => (v, .concatC true par2 oth2)
    | .unionC seen started c1 c2 =>
        if started then
          match nextF fuel c2 with
          | (none, c22) => (none, .unionC seen true c1 c22)
          | (some v, c22) =>
              if v ∈ seen then nextF fuel (.unionC seen true c1 c22)
              else (some v, .unionC (v :: seen) true c1 c22)
        else
          match nextF fuel c1 with
          | (none, c12) => nextF fuel (.unionC seen true c12 c2)
          | (some v, c12) =>
              if v ∈ seen then nextF fuel (.unionC seen false c12 c2)
              else (some v, .unionC (v :: seen) false c12 c2)
    | .intersectC oset seen child =>
        match nextF fuel child with
        | (none, ch2) => (none, .intersectC oset seen ch2)
        | (some v, ch2) =>
            if v ∈ oset then
              if v ∈ seen then nextF fuel (.intersectC oset seen ch2)
              else (some v, .intersectC oset (v :: seen) ch2)
            else nextF fuel (.intersectC oset seen ch2)
    | .exceptC oset seen child =>
        match nextF fuel child with
        | (none, ch2) => (none, .exceptC oset seen ch2)
        | (some v, ch2) =>
            if v ∈ oset then nextF fuel (.exceptC oset seen ch2)
            else
              if v ∈ seen then nextF fuel (.exceptC oset seen ch2)
              else (some v, .exceptC oset (v :: seen) ch2)
    | .takeOrderedC res i =>
        match res.get? i with
        | some v => (some v, .takeOrderedC res (i + 1))
        | none => (none, .takeOrderedC res i)

/-- One call of a pull closure, with the always-sufficient budget. -/
def next (c : MCur) : Option Int × MCur :=
  nextF (Wm c + hgt c + 1) c

/-- k further pull calls, threading the cursor state. -/
def stepN : Nat → MCur → MCur
  | 0, c => c
  | k + 1, c => stepN k (next c).2

/-- Pull to exhaustion, collecting the yielded values (the ToSlice loop,
kv.go 550-565), with an explicit pull budget. -/
def drainF : Nat → MCur → List Int × MCur
  | 0, c => ([], c)
  | fuel + 1, c =>
    match next c with
    | (none, c2) => ([], c2)
    | (some v, c2) =>
        match drainF fuel c2 with
        | (l, c3) => (v :: l, c3)

/-- Pull to exhaustion with the always-sufficient budget. -/
def drain (c : MCur) : List Int × MCur :=
  drainF (Wm c + 1) c

/-- The list of elements a cursor will still yield (its future trace). -/
def cden : MCur → List Int
  | .fromC data i => data.drop i
  | .rangeC st cnt i =>
      ((List.range cnt.toNat).map (fun j : Nat => st + (j : Int))).drop i
  | .emptyC => []
  | .whereC p par => (cden par).filter p
  | .selectC f par => (cden par).map f
  | .selectIdxC f i par => (cden par).mapIdx (fun j v => f v (i + j))
  | .takeC n cnt par => (cden par).take (n - (cnt : Int)).toNat
  | .skipC n sk par => (cden par).drop (n - (sk : Int)).toNat
  | .takeWhileC p stopped par => if stopped then [] else (cden par).takeWhile p
  | .skipWhileC p skipping par =>
      if skipping then (cden par).dropWhile p else cden par
  | .distinctByC key seen par => glinq.dedupByLoop key seen (cden par)
  | .concatC fE par oth => (if fE then [] else cden par) ++ cden oth
  | .unionC seen started c1 c2 =>
      glinq.dedupByLoop id seen ((if started then [] else cden c1) ++ cden c2)
  | .intersectC oset seen child =>
      glinq.dedupByLoop id seen ((cden child).filter (fun v => v ∈ oset))
  | .exceptC oset seen child =>
      glinq.dedupByLoop id seen ((cden child).filter (fun v => v ∉ oset))
  | .takeOrderedC res i => res.drop i

/-- Method-chain pipeline nodes: the operators whose constructors capture
the parent's traversal factory (operators.go method operators,
distinct.go DistinctBy) over the leaf constructors.  These nodes hold no
mutable state consulted by ToSlice. -/
inductive MPipe : Type where
  | fromP (data : List Int)
  | rangeP (start count : Int)
  | emptyP
  | whereP (pred : Int → Bool) (par : MPipe)
  | selectP (f : Int → Int) (par : MPipe)
  | selectIdxP (f : Int → Nat → Int) (par : MPipe)
  | takeP (n : Int) (par : MPipe)
  | skipP (n : Int) (par : MPipe)
  | takeWhileP (pred : Int → Bool) (par : MPipe)
  | skipWhileP (pred : Int → Bool) (par : MPipe)
  | distinctByP (key : Int → Int) (par : MPipe)

/-- The cursor a node's traversal factory builds: fresh locals around a
fresh parent cursor, obtained from the captured parent factory. -/
def initCur : MPipe → MCur
  | .fromP data => .fromC data 0
  | .rangeP st c => .rangeC st c 0
  | .emptyP => .emptyC
  | .whereP p q => .whereC p (initCur q)
  | .selectP f q => .selectC f (initCur q)
  | .selectIdxP f q => .selectIdxC f 0 (initCur q)
  | .takeP n q => .takeC n 0 (initCur q)
  | .skipP n q => .skipC n 0 (initCur q)
  | .takeWhileP p q => .takeWhileC p false (initCur q)
  | .skipWhileP p q => .skipWhileC p true (initCur q)
  | .distinctByP k q => .distinctByC k [] (initCur q)

/-- The pure denotation of a method-chain node: the list one full
traversal yields. -/
def mEval : MPipe → List Int
  | .fromP data => data
  | .rangeP st c => (List.range c.toNat).map (fun i : Nat => st + (i : Int))
  | .emptyP => []
  | .whereP p q => (mEval q).filter p
  | .selectP f q => (mEval q).map f
  | .selectIdxP f q => (mEval q).mapIdx (fun i v => f v i)
  | .takeP n q => (mEval q).take n.toNat
  | .skipP n q => (mEval q).drop n.toNat
  | .takeWhileP p q => (mEval q).takeWhile p
  | .skipWhileP p q => (mEval q).dropWhile p
  | .distinctByP k q => glinq.dedupByLoop k [] (mEval q)

/-- ToSlice on a method-chain node: build a fresh cursor from the node
(whose fields ToSlice never mutates) and drain it. -/
def toSliceM (p : MPipe) : List Int :=
  (drain (initCur p)).1

/-- Two ToSlice calls on the same node value: each call invokes the
factory on the unchanged immutable node. -/
def toSliceTwiceM (p : MPipe) : List Int × List Int :=
  (toSliceM p, toSliceM p)

/-- The pull closure Union's factory creates (set.go 55-58): fresh
seen-set and phase flag around the two argument enumerables' iterators,
which are NOT fresh — they belong to the argument streams and persist
across factory invocations (stream.go 358-364). -/
def unionFactory (it1 it2 : MCur) : MCur :=
  MCur.unionC [] false it1 it2

/-- The persistent iterators left inside a drained union cursor. -/
def unionChildren (c : MCur) : MCur × MCur :=
  match c with
  | .unionC _ _ a b => (a, b)
  | _ => (.emptyC, .emptyC)

/-- The relation between a cursor's future trace and the outcome of one
pull call: a yielded element is the head of the trace; an exhaustion
answer means the trace is empty and stays empty. -/
def CdenStep (c : MCur) : Option Int × MCur → Prop
  | (some v, c2) => cden c = v :: cden c2
  | (none, c2) => cden c = [] ∧ cden c2 = []

/-
Theorems.
-/

theorem heapTarget_of_ne {α : Type} [Inhabited α] (less : α → α → Bool)
    (items : Array α) (i n : Nat) (h : glinq.heapTarget less items i n ≠ i) :
    i < glinq.heapTarget less items i n ∧ glinq.heapTarget less items i n < n := by
  unfold glinq.heapTarget at h ⊢
  split_ifs at h ⊢ with h1 h2 h3
  · simp only [Bool.and_eq_true, decide_eq_true_eq] at h2
    omega
  · simp only [Bool.and_eq_true, decide_eq_true_eq] at h1
    omega
  · simp only [Bool.and_eq_true, decide_eq_true_eq] at h3
    omega
  · exact absurd rfl h

/-- C4: Top-K selection is wrong on the code: at source [5,2,8,1,9,3], k=3,
less = (<), TakeOrderedBy returns [1,5,8], not the three smallest [1,2,3]
promised by its own doc comment (operators.go 603-607).  buildHeap is called
with the complement of less (operators.go 651), which places the minimum of
the buffer at the root instead of the worst retained element, so the
root-replacement test (operators.go 660) discards every candidate that is
not below the current minimum. -/
theorem C4_takeOrderedBy_selection_bug :
    (glinq.TakeOrderedBy (fun a b => decide (a < b)) 3
        (glinq.From ([5, 2, 8, 1, 9, 3] : List Int))).items = [1, 5, 8] ∧
      ¬ (glinq.TakeOrderedBy (fun a b => decide (a < b)) 3
        (glinq.From ([5, 2, 8, 1, 9, 3] : List Int))).items = [1, 2, 3] := by
  decide

/-- C5: Take with a negative count yields the Empty node: no elements and
hint Known(0) (operators.go 419-421, stream.go 326-338). -/
theorem C5_take_negative_empty {α : Type} (s : glinq.GStream α) (n : Int)
    (h : n < 0) :
    glinq.Take n s = glinq.Empty ∧ (glinq.Take n s).items = [] ∧
      (glinq.Take n s).size = some 0 := by
  simp [glinq.Take, h, glinq.Empty]

theorem C5_take_negative_empty_witness :
    (-2 : Int) < 0 ∧
      (glinq.Take (-2) (glinq.From ([1, 2, 3] : List Int)) = glinq.Empty ∧
        (glinq.Take (-2) (glinq.From ([1, 2, 3] : List Int))).items = [] ∧
        (glinq.Take (-2) (glinq.From ([1, 2, 3] : List Int))).size = some 0) :=
  ⟨by decide, C5_take_negative_empty (glinq.From [1, 2, 3]) (-2) (by decide)⟩

/-- C6: Concat yields the elements of the first stream followed by the
other's, the traversal counts add, and when both hints are Known the
result's hint is their sum (set.go 7-37). -/
theorem C6_concat_cardinality {α : Type} (a b : glinq.GStream α) (sa sb : Int)
    (ha : a.size = some sa) (hb : b.size = some sb) :
    (glinq.Concat a b).items = a.items ++ b.items ∧
      (glinq.Concat a b).items.length = a.items.length + b.items.length ∧
      (glinq.Concat a b).size = some (sa + sb) := by
  refine ⟨rfl, by simp [glinq.Concat], ?_⟩
  simp [glinq.Concat, ha, hb]

theorem C6_concat_cardinality_witness :
    (glinq.Concat (glinq.From ([1, 2, 3] : List Int)) (glinq.From ([4, 5, 6] : List Int))).items
        = [1, 2, 3, 4, 5, 6] ∧
      (glinq.Concat (glinq.From ([1, 2, 3] : List Int)) (glinq.From ([4, 5, 6] : List Int))).size
        = some 6 := by
  have h := C6_concat_cardinality (glinq.From ([1, 2, 3] : List Int))
    (glinq.From ([4, 5, 6] : List Int)) 3 3 (by decide) (by decide)
  exact ⟨h.1.trans (by decide), h.2.2.trans (by decide)⟩

/-- C10: Count returns the stored hint whenever it is known and only falls
back to traversing when the hint is unknown (kv.go 575-592).  The witness
shows it reports the hint even where the hint disagrees with the actual
element count, so no traversal happens. -/
theorem C10_count_uses_hint {α : Type} (s : glinq.GStream α) :
    (∀ n : Int, s.size = some n → glinq.Count s = n) ∧
      (s.size = none → glinq.Count s = (s.items.length : Int)) := by
  constructor
  · intro n hn
    simp [glinq.Count, hn]
  · intro hn
    simp [glinq.Count, hn]

theorem C10_count_uses_hint_witness :
    glinq.Count (glinq.Take 5 (glinq.Where (fun _ => true) (glinq.From ([1, 2, 3] : List Int))))
        = 5 ∧
      (glinq.Take 5 (glinq.Where (fun _ => true) (glinq.From ([1, 2, 3] : List Int)))).items.length
        = 3 :=
  ⟨(C10_count_uses_hint _).1 5 (by decide), by decide⟩

/-- C1 counterexample: the hint-exactness invariant fails on two pipeline
nodes the claim itself singles out.  Take(5) over a parent with unknown
hint stores Known(5) but a full traversal yields 3 elements
(operators.go 430-431 stores n as an admitted upper bound), and
Range(0, -5) stores Known(-5), a negative hint, while a full traversal
yields no element (stream.go 354 stores the count as given). -/
theorem C1_hint_exactness_cex :
    ((glinq.Take 5 (glinq.Where (fun _ => true) (glinq.From ([1, 2, 3] : List Int)))).size
        = some 5 ∧
      (glinq.Take 5 (glinq.Where (fun _ => true) (glinq.From ([1, 2, 3] : List Int)))).items.length
        = 3) ∧
      ((glinq.Range 0 (-5)).size = some (-5) ∧ (glinq.Range 0 (-5)).items.length = 0) := by
  decide

theorem size_heapifyDownGo {α : Type} [Inhabited α] (less : α → α → Bool)
    (fuel : Nat) (items : Array α) (i n : Nat) :
    (glinq.heapifyDownGo less fuel items i n).size = items.size := by
  induction fuel generalizing items i n with
  | zero => rfl
  | succ f ih =>
      unfold glinq.heapifyDownGo
      split
      · rfl
      · rw [ih]
        simp [Array.size_setD]

theorem size_heapifyDown {α : Type} [Inhabited α] (less : α → α → Bool)
    (items : Array α) (i n : Nat) :
    (glinq.heapifyDown less items i n).size = items.size :=
  size_heapifyDownGo less (n - i) items i n

theorem size_foldl_heapifyDown {α : Type} [Inhabited α] (less : α → α → Bool)
    (n : Nat) (l : List Nat) (items : Array α) :
    (l.foldl (fun arr j => glinq.heapifyDown less arr (n / 2 - 1 - j) n) items).size
      = items.size := by
  induction l generalizing items with
  | nil => rfl
  | cons j t ih =>
      rw [List.foldl_cons, ih, size_heapifyDown]

theorem size_buildHeap {α : Type} [Inhabited α] (less : α → α → Bool)
    (items : Array α) :
    (glinq.buildHeap less items).size = items.size := by
  unfold glinq.buildHeap
  exact size_foldl_heapifyDown less items.size (List.range (items.size / 2)) items

theorem size_heapReplaceLoop {α : Type} [Inhabited α] (less : α → α → Bool)
    (rest : List α) (h0 : Array α) :
    (rest.foldl
        (fun h val =>
          if less val (h.getD 0 default) then
            glinq.heapifyDown (fun a b => !less a b) (h.setD 0 val) 0 h.size
          else h)
        h0).size = h0.size := by
  induction rest generalizing h0 with
  | nil => rfl
  | cons v rest ih =>
      rw [List.foldl_cons, ih]
      split
      · rw [size_heapifyDown]
        simp [Array.size_setD]
      · rfl

theorem length_goSortSlice {α : Type} (less : α → α → Bool) (l : List α) :
    (glinq.goSortSlice less l).length = l.length :=
  List.length_insertionSort _ l

theorem length_TakeOrderedBy_items {α : Type} [Inhabited α] (less : α → α → Bool)
    (n : Int) (s : glinq.GStream α) :
    (glinq.TakeOrderedBy less n s).items.length = min n.toNat s.items.length := by
  unfold glinq.TakeOrderedBy
  split
  · rename_i hn
    simp [glinq.Empty]
    omega
  · simp only
    split
    · rename_i h0
      simp only [Array.size_toArray, List.length_take] at h0
      simp [h0]
    · rename_i h0
      rw [length_goSortSlice, Array.length_toList, size_heapReplaceLoop,
        size_buildHeap]
      simp

theorem sorted_goSortSlice_lt (l : List Int) :
    (glinq.goSortSlice (fun a b => decide (a < b)) l).Sorted (· ≤ ·) := by
  letI : IsTotal Int (fun a b : Int => decide (b < a) = false) :=
    ⟨fun a b => by
      simp only [decide_eq_false_iff_not, not_lt]
      exact (le_total b a).symm⟩
  letI : IsTrans Int (fun a b : Int => decide (b < a) = false) :=
    ⟨fun a b c hab hbc => by
      simp only [decide_eq_false_iff_not, not_lt] at hab hbc ⊢
      exact le_trans hab hbc⟩
  have h := List.sorted_insertionSort (fun a b : Int => decide (b < a) = false) l
  exact h.imp (fun hab => by
    simp only [decide_eq_false_iff_not, not_lt] at hab
    exact hab)

/-- C3: the top-K contract of TakeOrderedBy (operators.go 610-684): for
every finite source and integer k it yields exactly min(k, count) elements;
with the strict order on Int the result is fully ascending; and k ≤ 0
yields the Empty node for every source whatsoever (operators.go 611-613
return before the source is touched), so no element is pulled. -/
theorem C3_topk_contract (k : Int) :
    (∀ (α : Type) (inst : Inhabited α) (less : α → α → Bool) (s : glinq.GStream α),
        (glinq.TakeOrderedBy less k s).items.length = min k.toNat s.items.length) ∧
      (∀ s : glinq.GStream Int,
        (glinq.TakeOrderedBy (fun a b => decide (a < b)) k s).items.Sorted (· ≤ ·)) ∧
      (k ≤ 0 → ∀ (α : Type) (inst : Inhabited α) (less : α → α → Bool)
        (s : glinq.GStream α), glinq.TakeOrderedBy less k s = glinq.Empty) := by
  refine ⟨fun α inst less s => length_TakeOrderedBy_items less k s, ?_, ?_⟩
  · intro s
    unfold glinq.TakeOrderedBy
    split
    · simp [glinq.Empty, List.Sorted]
    · simp only
      split
      · simp [List.Sorted]
      · exact sorted_goSortSlice_lt _
  · intro hk α inst less s
    unfold glinq.TakeOrderedBy
    simp [hk]

theorem C3_topk_contract_witness :
    ((-1 : Int) ≤ 0 ∧
        glinq.TakeOrderedBy (fun a b : Int => decide (a < b)) (-1)
          (glinq.From ([7, 7] : List Int)) = glinq.Empty) ∧
      (glinq.TakeOrderedBy (fun a b : Int => decide (a < b)) 3
          (glinq.From ([5, 2, 8, 1, 9, 3] : List Int))).items.length = min 3 6 :=
  ⟨⟨by decide,
      (C3_topk_contract (-1)).2.2 (by decide) Int inferInstance _ _⟩,
    ((C3_topk_contract 3).1 Int inferInstance _ _).trans (by decide)⟩

/-- C1 amended: hint exactness holds for the leaf constructors (Range only
with a non-negative count) and is preserved by the hint-preserving and
hint-computing operators over exact parents with known hints; it fails
exactly where the counterexample shows: Take (and likewise TakeOrderedBy)
over a parent with unknown hint records Known(n) which is only an upper
bound on the traversal count, and Range with a negative count records a
negative Known hint while traversing no element. -/
theorem C1_hint_exactness_amended {α β : Type} [Inhabited α] [DecidableEq β] :
    (∀ l : List α, hintExact (glinq.From l)) ∧
      hintExact (glinq.Empty (α := α)) ∧
      (∀ st c : Int, 0 ≤ c → hintExact (glinq.Range st c)) ∧
      (∀ st c : Int, c < 0 → (glinq.Range st c).size = some c ∧
        (glinq.Range st c).items = []) ∧
      (∀ (f : α → β) (s : glinq.GStream α), hintExact s →
        hintExact (glinq.Select f s)) ∧
      (∀ (f : α → Nat → β) (s : glinq.GStream α), hintExact s →
        hintExact (glinq.SelectWithIndex f s)) ∧
      (∀ (p : α → Bool) (s : glinq.GStream α), hintExact (glinq.Where p s)) ∧
      (∀ (p : α → Bool) (s : glinq.GStream α), hintExact (glinq.TakeWhile p s)) ∧
      (∀ (p : α → Bool) (s : glinq.GStream α), hintExact (glinq.SkipWhile p s)) ∧
      (∀ (n : Int) (s : glinq.GStream α) (m : Int), s.size = some m →
        hintExact s → hintExact (glinq.Take n s)) ∧
      (∀ (n : Int) (s : glinq.GStream α), 0 ≤ n → s.size = none →
        ((glinq.Take n s).items.length : Int) ≤ n) ∧
      (∀ (n : Int) (s : glinq.GStream α), hintExact s → hintExact (glinq.Skip n s)) ∧
      (∀ a b : glinq.GStream α, hintExact a → hintExact b →
        hintExact (glinq.Concat a b)) ∧
      (∀ s : glinq.GStream α, hintExact (glinq.Reverse s)) ∧
      (∀ (less : α → α → Bool) (n : Int) (s : glinq.GStream α) (m : Int),
        s.size = some m → hintExact s → hintExact (glinq.TakeOrderedBy less n s)) ∧
      (∀ (less : α → α → Bool) (n : Int) (s : glinq.GStream α), 0 < n →
        s.size = none → ((glinq.TakeOrderedBy less n s).items.length : Int) ≤ n) ∧
      (∀ (keySel : α → β) (s : glinq.GStream α) (order : List β),
        hintExact (glinq.GroupByWith keySel s order)) := by
  refine ⟨?_, ?_, ?_, ?_, ?_, ?_, ?_, ?_, ?_, ?_, ?_, ?_, ?_, ?_, ?_, ?_, ?_⟩
  · intro l
    simp [hintExact, glinq.From]
  · simp [hintExact, glinq.Empty]
  · intro st c hc
    simp only [hintExact, glinq.Range]
    rw [List.length_map, List.length_range]
    omega
  · intro st c hc
    refine ⟨rfl, ?_⟩
    simp only [glinq.Range]
    have h0 : c.toNat = 0 := by omega
    simp [h0]
  · intro f s hs
    simp only [hintExact, glinq.Select, List.length_map] at *
    exact hs
  · intro f s hs
    simp only [hintExact, glinq.SelectWithIndex, List.length_mapIdx] at *
    exact hs
  · intro p s
    simp [hintExact, glinq.Where]
  · intro p s
    simp [hintExact, glinq.TakeWhile]
  · intro p s
    simp [hintExact, glinq.SkipWhile]
  · intro n s m hm hs
    simp only [hintExact, hm] at hs
    by_cases hn : n < 0
    · simp [glinq.Take, hn, glinq.Empty, hintExact]
    · simp only [glinq.Take, if_neg hn, hintExact, hm, List.length_take]
      omega
  · intro n s hn hsz
    simp only [glinq.Take, if_neg (by omega : ¬ n < 0), List.length_take]
    omega
  · intro n s hs
    cases hsz : s.size with
    | none => simp [hintExact, glinq.Skip, hsz]
    | some m =>
        simp only [hintExact, hsz] at hs
        by_cases hge : max n 0 ≥ m
        · simp [glinq.Skip, hsz, hge, glinq.Empty, hintExact]
        · simp only [glinq.Skip, hsz, if_neg hge, hintExact, List.length_drop]
          omega
  · intro a b ha hb
    cases hsa : a.size with
    | none => simp [hintExact, glinq.Concat, hsa]
    | some sa =>
        cases hsb : b.size with
        | none => simp [hintExact, glinq.Concat, hsa, hsb]
        | some sb =>
            simp only [hintExact, hsa] at ha
            simp only [hintExact, hsb] at hb
            simp only [hintExact, glinq.Concat, hsa, hsb, List.length_append]
            push_cast
            omega
  · intro s
    simp [hintExact, glinq.Reverse, glinq.From]
  · intro less n s m hm hs
    simp only [hintExact, hm] at hs
    by_cases hn : n ≤ 0
    · simp [glinq.TakeOrderedBy, hn, glinq.Empty, hintExact]
    · have hlen := length_TakeOrderedBy_items less n s
      have hsz2 : (glinq.TakeOrderedBy less n s).size
          = some (if m < n then m else n) := by
        simp [glinq.TakeOrderedBy, hn, hm]
      simp only [hintExact, hsz2, hlen]
      split_ifs <;> omega
  · intro less n s hn hsz
    have hlen := length_TakeOrderedBy_items less n s
    rw [hlen]
    omega
  · intro keySel s order
    simp [hintExact, glinq.GroupByWith]

theorem C1_hint_exactness_amended_witness :
    hintExact (glinq.Take 2 (glinq.From ([5, 6, 7] : List Int))) ∧
      ((glinq.Take 5 (glinq.Where (fun _ => true)
          (glinq.From ([1, 2, 3] : List Int)))).items.length : Int) ≤ 5 ∧
      (glinq.Range 0 (-5)).items = [] := by
  have h := C1_hint_exactness_amended (α := Int) (β := Int)
  refine ⟨h.2.2.2.2.2.2.2.2.2.1 2 (glinq.From [5, 6, 7]) 3 rfl (by exact rfl),
    ?_, ?_⟩
  · exact h.2.2.2.2.2.2.2.2.2.2.1 5
      (glinq.Where (fun _ => true) (glinq.From [1, 2, 3])) (by decide) rfl
  · exact (h.2.2.2.1 0 (-5) (by decide)).2

theorem groupsFind_groupsInsert {α κ : Type} [DecidableEq κ]
    (g : List (κ × List α)) (kIns k : κ) (v : α) :
    glinq.groupsFind (glinq.groupsInsert g kIns v) k
      = if kIns = k then glinq.groupsFind g k ++ [v] else glinq.groupsFind g k := by
  induction g with
  | nil =>
      by_cases h : kIns = k <;> simp [glinq.groupsInsert, glinq.groupsFind, h]
  | cons p rest ih =>
      obtain ⟨k1, vs⟩ := p
      by_cases h1 : k1 = kIns
      · subst h1
        by_cases h2 : k1 = k <;>
          simp [glinq.groupsInsert, glinq.groupsFind, h2]
      · by_cases h2 : k1 = k
        · subst h2
          have : ¬ kIns = k1 := fun hh => h1 hh.symm
          simp [glinq.groupsInsert, glinq.groupsFind, h1, this]
        · simp [glinq.groupsInsert, glinq.groupsFind, h1, h2, ih]

theorem groupsFind_groupsOf {α κ : Type} [DecidableEq κ] (keySel : α → κ)
    (l : List α) (k : κ) :
    glinq.groupsFind (glinq.groupsOf keySel l) k
      = l.filter (fun x => keySel x = k) := by
  suffices h : ∀ g : List (κ × List α),
      glinq.groupsFind (l.foldl (fun g x => glinq.groupsInsert g (keySel x) x) g) k
        = glinq.groupsFind g k ++ l.filter (fun x => keySel x = k) by
    simpa [glinq.groupsOf, glinq.groupsFind] using h []
  induction l with
  | nil => intro g; simp
  | cons x xs ih =>
      intro g
      rw [List.foldl_cons, ih (glinq.groupsInsert g (keySel x) x),
        groupsFind_groupsInsert]
      by_cases h : keySel x = k <;> simp [h, List.filter_cons]

theorem keys_groupsInsert {α κ : Type} [DecidableEq κ] (g : List (κ × List α))
    (kIns : κ) (v : α) :
    (glinq.groupsInsert g kIns v).map Prod.fst
      = if kIns ∈ g.map Prod.fst then g.map Prod.fst
        else g.map Prod.fst ++ [kIns] := by
  induction g with
  | nil => simp [glinq.groupsInsert]
  | cons p rest ih =>
      obtain ⟨k1, vs⟩ := p
      by_cases h : k1 = kIns
      · subst h
        simp [glinq.groupsInsert]
      · have hne : ¬ kIns = k1 := fun hh => h hh.symm
        by_cases hmem : kIns ∈ rest.map Prod.fst <;>
          simp [glinq.groupsInsert, h, hne, hmem, ih]

theorem keys_groupsOf {α κ : Type} [DecidableEq κ] (keySel : α → κ) (l : List α) :
    (glinq.groupsOf keySel l).map Prod.fst
      = glinq.dedupByLoop id [] (l.map keySel) := by
  suffices h : ∀ (g : List (κ × List α)) (seen : List κ),
      (∀ a, a ∈ g.map Prod.fst ↔ a ∈ seen) →
      (l.foldl (fun g x => glinq.groupsInsert g (keySel x) x) g).map Prod.fst
        = g.map Prod.fst ++ glinq.dedupByLoop id seen (l.map keySel) by
    simpa [glinq.groupsOf] using h [] [] (by simp)
  induction l with
  | nil => intro g seen hg; simp [glinq.dedupByLoop]
  | cons x xs ih =>
      intro g seen hg
      rw [List.foldl_cons, List.map_cons]
      by_cases hx : keySel x ∈ seen
      · have hkeys : (glinq.groupsInsert g (keySel x) x).map Prod.fst
            = g.map Prod.fst := by
          rw [keys_groupsInsert, if_pos ((hg (keySel x)).mpr hx)]
        rw [ih (glinq.groupsInsert g (keySel x) x) seen (by simp [hkeys, hg]),
          hkeys]
        simp [glinq.dedupByLoop, hx]
      · have hkeys : (glinq.groupsInsert g (keySel x) x).map Prod.fst
            = g.map Prod.fst ++ [keySel x] := by
          rw [keys_groupsInsert,
            if_neg (fun hmem => hx ((hg (keySel x)).mp hmem))]
        rw [ih (glinq.groupsInsert g (keySel x) x) (keySel x :: seen)
          (by intro a; simp [hkeys, hg a]; tauto), hkeys]
        simp [glinq.dedupByLoop, hx]

/-- C7 counterexample: the Go map iteration order is unspecified, so
GroupBy's pairs need not follow first-occurrence order.  For source
[10, 21] with key x % 10 the map keys are {0, 1}; the enumeration [1, 0] is
a realizable `range` order (a permutation of the keys), and under it the
emitted pairs are [(1,[21]), (0,[10])], whose key order differs from the
first-occurrence order [0, 1] (kv.go 175: `for key, values := range
groups`). -/
theorem C7_groupby_order_cex :
    ([1, 0] : List Int).Perm
        ((glinq.groupsOf (fun x : Int => x % 10) [10, 21]).map Prod.fst) ∧
      (glinq.GroupByWith (fun x : Int => x % 10)
          (glinq.From ([10, 21] : List Int)) [1, 0]).items
        = [(1, [21]), (0, [10])] ∧
      ¬ ((glinq.GroupByWith (fun x : Int => x % 10)
          (glinq.From ([10, 21] : List Int)) [1, 0]).items.map Prod.fst
        = [0, 1]) := by
  decide

/-- C7 amended: GroupBy materializes the source into key-indexed groups;
under every realizable map enumeration order (any permutation of the map's
keys), the emitted pair keys are exactly that order, each group holds
exactly the source elements with that key in source relative order, the
hint is the number of pairs, and the map's key set is the distinct source
keys in first-occurrence order internally — but the emitted pair order is
the map's unspecified order, not necessarily first-occurrence order
(kv.go 161-194). -/
theorem C7_groupby_amended {α κ : Type} [DecidableEq κ] (keySel : α → κ)
    (s : glinq.GStream α) (order : List κ)
    (h : order.Perm ((glinq.groupsOf keySel s.items).map Prod.fst)) :
    ((glinq.GroupByWith keySel s order).items.map Prod.fst = order) ∧
      (∀ p ∈ (glinq.GroupByWith keySel s order).items,
        p.2 = s.items.filter (fun x => keySel x = p.1)) ∧
      ((glinq.GroupByWith keySel s order).size
        = some ((glinq.GroupByWith keySel s order).items.length : Int)) ∧
      ((glinq.groupsOf keySel s.items).map Prod.fst
        = glinq.dedupByLoop id [] (s.items.map keySel)) ∧
      order.Perm (glinq.dedupByLoop id [] (s.items.map keySel)) := by
  refine ⟨?_, ?_, ?_, keys_groupsOf keySel s.items, ?_⟩
  · simp [glinq.GroupByWith, List.map_map, Function.comp_def]
  · intro p hp
    simp only [glinq.GroupByWith, List.mem_map] at hp
    obtain ⟨k, hk, rfl⟩ := hp
    simpa using (groupsFind_groupsOf keySel s.items k)
  · rfl
  · exact h.trans (by rw [keys_groupsOf keySel s.items])

theorem C7_groupby_amended_witness :
    ((glinq.GroupByWith (fun x : Int => x % 10)
        (glinq.From ([10, 21, 30] : List Int)) [1, 0]).items.map Prod.fst = [1, 0]) ∧
      (∀ p ∈ (glinq.GroupByWith (fun x : Int => x % 10)
        (glinq.From ([10, 21, 30] : List Int)) [1, 0]).items,
        p.2 = (glinq.From ([10, 21, 30] : List Int)).items.filter
          (fun x => x % 10 = p.1)) :=
  ⟨(C7_groupby_amended (fun x : Int => x % 10)
      (glinq.From ([10, 21, 30] : List Int)) [1, 0] (by decide)).1,
    (C7_groupby_amended (fun x : Int => x % 10)
      (glinq.From ([10, 21, 30] : List Int)) [1, 0] (by decide)).2.1⟩

/-- C8 counterexample: the nil sentinel of Chunk is not distinguishable
from every legitimate zero-chunk result: over a parent with unknown hint
and no elements, Chunk(3) also returns Go nil (kv.go 666: `var result
[][]T` is never assigned when no chunk is appended and the hint is
unknown), the same value Chunk(-1) returns as the invalid-size sentinel
(kv.go 661-663). -/
theorem C8_chunk_sentinel_cex :
    glinq.Chunk 3 (glinq.Where (fun _ => false) (glinq.From ([1] : List Int)))
        = none ∧
      glinq.Chunk (-1) (glinq.Where (fun _ => false) (glinq.From ([1] : List Int)))
        = none := by
  constructor
  · simp [glinq.Chunk, glinq.Where, glinq.From, glinq.chunkListP]
  · simp [glinq.Chunk]

/-- C8 amended: Chunk with size ≤ 0 returns the nil sentinel without
faulting, for every stream; the sentinel is distinguishable from a
legitimate empty result only when the stream's hint is known (the
preallocation `make` yields a non-nil slice, modelled `some chunks`); when
the hint is unknown and the stream is empty, Chunk returns nil as well,
indistinguishable from the sentinel (kv.go 660-694). -/
theorem C8_chunk_sentinel_amended {α : Type} (s : glinq.GStream α) (size : Int) :
    (size ≤ 0 → glinq.Chunk size s = none) ∧
      (0 < size → ∀ m : Int, s.size = some m →
        glinq.Chunk size s = some (glinq.chunkListP (size.toNat - 1) s.items)) ∧
      (0 < size → s.size = none → s.items = [] → glinq.Chunk size s = none) := by
  refine ⟨?_, ?_, ?_⟩
  · intro h
    simp [glinq.Chunk, h]
  · intro h m hm
    simp [glinq.Chunk, not_le.mpr h, hm]
  · intro h hsz hitems
    simp [glinq.Chunk, not_le.mpr h, hsz, hitems, glinq.chunkListP]

theorem C8_chunk_sentinel_amended_witness :
    glinq.Chunk (-1) (glinq.From ([1] : List Int)) = none ∧
      glinq.Chunk 3 (glinq.From ([] : List Int)) = some [] ∧
      glinq.Chunk 3 (glinq.Where (fun _ => false) (glinq.From ([1] : List Int)))
        = none := by
  refine ⟨(C8_chunk_sentinel_amended (glinq.From ([1] : List Int)) (-1)).1 (by decide),
    ?_, ?_⟩
  · have h := (C8_chunk_sentinel_amended (glinq.From ([] : List Int)) 3).2.1
      (by decide) 0 rfl
    rw [h]
    simp [glinq.From, glinq.chunkListP]
  · exact (C8_chunk_sentinel_amended
      (glinq.Where (fun _ => false) (glinq.From ([1] : List Int))) 3).2.2
      (by decide) rfl (by decide)

theorem hgt_nextF (fuel : Nat) (c : MCur) : hgt (nextF fuel c).2 = hgt c := by
  induction fuel generalizing c with
  | zero => rfl
  | succ fuel ih =>
      cases c with
      | fromC data i =>
          simp only [nextF]
          cases h : data.get? i <;> simp [h, hgt]
      | rangeC st cnt i =>
          simp only [nextF]
          split <;> simp [hgt]
      | emptyC => rfl
      | whereC p par =>
          simp only [nextF]
          rcases h : nextF fuel par with ⟨vo, par2⟩
          have hp := ih par
          rw [h] at hp
          cases vo with
          | none => simp [hgt, hp]
          | some v =>
              by_cases hv : p v
              · simp [hv, hgt, hp]
              · simp only [hv, Bool.false_eq_true, if_false]
                rw [ih (MCur.whereC p par2)]
                simp [hgt, hp]
      | selectC f par =>
          simp only [nextF]
          rcases h : nextF fuel par with ⟨vo, par2⟩
          have hp := ih par
          rw [h] at hp
          cases vo <;> simp [hgt, hp]
      | selectIdxC f i par =>
          simp only [nextF]
          rcases h : nextF fuel par with ⟨vo, par2⟩
          have hp := ih par
          rw [h] at hp
          cases vo <;> simp [hgt, hp]
      | takeC n cnt par =>
          simp only [nextF]
          split
          · simp [hgt]
          · rcases h : nextF fuel par with ⟨vo, par2⟩
            have hp := ih par
            rw [h] at hp
            cases vo <;> simp [hgt, hp]
      | skipC n sk par =>
          simp only [nextF]
          split
          · rcases h : nextF fuel par with ⟨vo, par2⟩
            have hp := ih par
            rw [h] at hp
            cases vo with
            | none => simp [hgt, hp]
            | some v =>
                simp only
                rw [ih (MCur.skipC n (sk + 1) par2)]
                simp [hgt, hp]
          · rcases h : nextF fuel par with ⟨vo, par2⟩
            have hp := ih par
            rw [h] at hp
            cases vo <;> simp [hgt, hp]
      | takeWhileC p stopped par =>
          simp only [nextF]
          split
          · simp [hgt]
          · rcases h : nextF fuel par with ⟨vo, par2⟩
            have hp := ih par
            rw [h] at hp
            cases vo with
            | none => simp [hgt, hp]
            | some v => by_cases hv : p v <;> simp [hv, hgt, hp]
      | skipWhileC p skipping par =>
          simp only [nextF]
          split
          · rcases h : nextF fuel par with ⟨vo, par2⟩
            have hp := ih par
            rw [h] at hp
            cases vo with
            | none => simp [hgt, hp]
            | some v =>
                by_cases hv : p v
                · simp only [hv, if_true]
                  rw [ih (MCur.skipWhileC p true par2)]
                  simp [hgt, hp]
                · simp [hv, hgt, hp]
          · rcases h : nextF fuel par with ⟨vo, par2⟩
            have hp := ih par
            rw [h] at hp
            cases vo <;> simp [hgt, hp]
      | distinctByC key seen par =>
          simp only [nextF]
          rcases h : nextF fuel par with ⟨vo, par2⟩
          have hp := ih par
          rw [h] at hp
          cases vo with
          | none => simp [hgt, hp]
          | some v =>
              by_cases hv : key v ∈ seen
              · simp only [hv, if_true]
                rw [ih (MCur.distinctByC key seen par2)]
                simp [hgt, hp]
              · simp [hv, hgt, hp]
      | concatC fE par oth =>
          simp only [nextF]
          split
          · rcases h : nextF fuel oth with ⟨vo, oth2⟩
            have hp := ih oth
            rw [h] at hp
            simp [hgt, hp]
          · rcases h : nextF fuel par with ⟨vo, par2⟩
            have hp := ih par
            rw [h] at hp
            cases vo with
            | some v => simp [hgt, hp]
            | none =>
                rcases h2 : nextF fuel oth with ⟨vo2, oth2⟩
                have hp2 := ih oth
                rw [h2] at hp2
                simp [hgt, hp, hp2]
      | unionC seen started c1 c2 =>
          simp only [nextF]
          split
          · rcases h : nextF fuel c2 with ⟨vo, c22⟩
            have hp := ih c2
            rw [h] at hp
            cases vo with
            | none => simp [hgt, hp]
            | some v =>
                by_cases hv : v ∈ seen
                · simp only [hv, if_true]
                  rw [ih (MCur.unionC seen true c1 c22)]
                  simp [hgt, hp]
                · simp [hv, hgt, hp]
          · rcases h : nextF fuel c1 with ⟨vo, c12⟩
            have hp := ih c1
            rw [h] at hp
            cases vo with
            | none =>
                simp only
                rw [ih (MCur.unionC seen true c12 c2)]
                simp [hgt, hp]
            | some v =>
                by_cases hv : v ∈ seen
                · simp only [hv, if_true]
                  rw [ih (MCur.unionC seen false c12 c2)]
                  simp [hgt, hp]
                · simp [hv, hgt, hp]
      | intersectC oset seen child =>
          simp only [nextF]
          rcases h : nextF fuel child with ⟨vo, ch2⟩
          have hp := ih child
          rw [h] at hp
          cases vo with
          | none => simp [hgt, hp]
          | some v =>
              by_cases hv : v ∈ oset
              · by_cases hs : v ∈ seen
                · simp only [hv, hs, if_true]
                  rw [ih (MCur.intersectC oset seen ch2)]
                  simp [hgt, hp]
                · simp [hv, hs, hgt, hp]
              · simp only [hv, Bool.false_eq_true, if_false]
                rw [ih (MCur.intersectC oset seen ch2)]
                simp [hgt, hp]
      | exceptC oset seen child =>
          simp only [nextF]
          rcases h : nextF fuel child with ⟨vo, ch2⟩
          have hp := ih child
          rw [h] at hp
          cases vo with
          | none => simp [hgt, hp]
          | some v =>
              by_cases hv : v ∈ oset
              · simp only [hv, if_true]
                rw [ih (MCur.exceptC oset seen ch2)]
                simp [hgt, hp]
              · by_cases hs : v ∈ seen
                · simp only [hv, hs, Bool.false_eq_true, if_false, if_true]
                  rw [ih (MCur.exceptC oset seen ch2)]
                  simp [hgt, hp]
                · simp [hv, hs, hgt, hp]
      | takeOrderedC res i =>
          simp only [nextF]
          cases h : res.get? i <;> simp [h, hgt]

theorem get?_some_lt {α : Type} {l : List α} {i : Nat} {v : α}
    (h : l.get? i = some v) : i < l.length := by
  by_contra hle
  rw [List.get?_eq_none.mpr (by omega)] at h
  exact absurd h (by simp)

theorem msize_switches_nextF (fuel : Nat) (c : MCur) :
    ∀ vo c2, nextF fuel c = (vo, c2) →
      (msize c2 ≤ msize c ∧ switches c2 ≤ switches c) ∧
        (vo ≠ none → msize c2 < msize c) := by
  induction fuel generalizing c with
  | zero =>
      intro vo c2 heq
      simp only [nextF] at heq
      cases heq
      exact ⟨⟨le_refl _, le_refl _⟩, fun h => absurd rfl h⟩
  | succ fuel ih =>
      cases c with
      | fromC data i =>
          intro vo c2 heq
          simp only [nextF] at heq
          cases h : data.get? i with
          | none =>
              rw [h] at heq
              cases heq
              exact ⟨⟨le_refl _, le_refl _⟩, fun hw => absurd rfl hw⟩
          | some v =>
              have hi := get?_some_lt h
              rw [h] at heq
              cases heq
              refine ⟨⟨?_, ?_⟩, fun _ => ?_⟩ <;> simp [msize, switches] <;> omega
      | rangeC st cnt i =>
          intro vo c2 heq
          simp only [nextF] at heq
          split at heq
          · rename_i hi
            cases heq
            refine ⟨⟨?_, ?_⟩, fun _ => ?_⟩ <;> simp [msize, switches] <;> omega
          · cases heq
            exact ⟨⟨le_refl _, le_refl _⟩, fun hw => absurd rfl hw⟩
      | emptyC =>
          intro vo c2 heq
          simp only [nextF] at heq
          cases heq
          exact ⟨⟨le_refl _, le_refl _⟩, fun h => absurd rfl h⟩
      | whereC p par =>
          intro vo c2 heq
          simp only [nextF] at heq
          rcases h : nextF fuel par with ⟨po, par2⟩
          rw [h] at heq
          have hp := ih par po par2 h
          cases po with
          | none =>
              simp only at heq
              cases heq
              exact ⟨by simpa [msize, switches] using hp.1,
                fun hw => absurd rfl hw⟩
          | some v =>
              have hplt : msize par2 < msize par := hp.2 (by simp)
              by_cases hv : p v
              · simp only [hv, if_true] at heq
                cases heq
                have h1 := hp.1
                refine ⟨⟨?_, ?_⟩, fun _ => ?_⟩ <;>
                  simp only [msize, switches] <;> omega
              · simp only [hv, Bool.false_eq_true, if_false] at heq
                have hl := ih (MCur.whereC p par2) vo c2 heq
                have h1 := hp.1
                simp only [msize, switches] at hl ⊢
                exact ⟨⟨by omega, by omega⟩, fun hw => by
                  have := hl.2 hw
                  omega⟩
      | selectC f par =>
          intro vo c2 heq
          simp only [nextF] at heq
          rcases h : nextF fuel par with ⟨po, par2⟩
          rw [h] at heq
          have hp := ih par po par2 h
          cases po with
          | none =>
              simp only at heq
              cases heq
              exact ⟨by simpa [msize, switches] using hp.1, fun hw => absurd rfl hw⟩
          | some v =>
              have hplt : msize par2 < msize par := hp.2 (by simp)
              simp only at heq
              cases heq
              have h1 := hp.1
              refine ⟨⟨?_, ?_⟩, fun _ => ?_⟩ <;>
                simp only [msize, switches] <;> omega
      | selectIdxC f i par =>
          intro vo c2 heq
          simp only [nextF] at heq
          rcases h : nextF fuel par with ⟨po, par2⟩
          rw [h] at heq
          have hp := ih par po par2 h
          cases po with
          | none =>
              simp only at heq
              cases heq
              exact ⟨by simpa [msize, switches] using hp.1, fun hw => absurd rfl hw⟩
          | some v =>
              have hplt : msize par2 < msize par := hp.2 (by simp)
              simp only at heq
              cases heq
              have h1 := hp.1
              refine ⟨⟨?_, ?_⟩, fun _ => ?_⟩ <;>
                simp only [msize, switches] <;> omega
      | takeC n cnt par =>
          intro vo c2 heq
          simp only [nextF] at heq
          split at heq
          · cases heq
            exact ⟨⟨le_refl _, le_refl _⟩, fun hw => absurd rfl hw⟩
          · rcases h : nextF fuel par with ⟨po, par2⟩
            rw [h] at heq
            have hp := ih par po par2 h
            cases po with
            | none =>
                simp only at heq
                cases heq
                exact ⟨by simpa [msize, switches] using hp.1, fun hw => absurd rfl hw⟩
            | some v =>
                have hplt : msize par2 < msize par := hp.2 (by simp)
                simp only at heq
                cases heq
                have h1 := hp.1
                refine ⟨⟨?_, ?_⟩, fun _ => ?_⟩ <;>
                  simp only [msize, switches] <;> omega
      | skipC n sk par =>
          intro vo c2 heq
          simp only [nextF] at heq
          split at heq <;>
          · rcases h : nextF fuel par with ⟨po, par2⟩
            rw [h] at heq
            have hp := ih par po par2 h
            cases po with
            | none =>
                simp only at heq
                cases heq
                exact ⟨by simpa [msize, switches] using hp.1, fun hw => absurd rfl hw⟩
            | some v =>
                have hplt : msize par2 < msize par := hp.2 (by simp)
                have h1 := hp.1
                first
                | · have hl := ih (MCur.skipC n (sk + 1) par2) vo c2 heq
                    simp only [msize, switches] at hl ⊢
                    exact ⟨⟨by omega, by omega⟩, fun hw => by
                      have := hl.2 hw
                      omega⟩
                | · simp only at heq
                    cases heq
                    refine ⟨⟨?_, ?_⟩, fun _ => ?_⟩ <;>
                      simp only [msize, switches] <;> omega
      | takeWhileC p stopped par =>
          intro vo c2 heq
          simp only [nextF] at heq
          split at heq
          · cases heq
            exact ⟨⟨le_refl _, le_refl _⟩, fun hw => absurd rfl hw⟩
          · rcases h : nextF fuel par with ⟨po, par2⟩
            rw [h] at heq
            have hp := ih par po par2 h
            cases po with
            | none =>
                simp only at heq
                cases heq
                exact ⟨by simpa [msize, switches] using hp.1, fun hw => absurd rfl hw⟩
            | some v =>
                have hplt : msize par2 < msize par := hp.2 (by simp)
                have h1 := hp.1
                by_cases hv : p v
                · simp only [hv, if_true] at heq
                  cases heq
                  refine ⟨⟨?_, ?_⟩, fun _ => ?_⟩ <;>
                    simp only [msize, switches] <;> omega
                · simp only [hv, Bool.false_eq_true, if_false] at heq
                  cases heq
                  refine ⟨⟨?_, ?_⟩, fun hw => absurd rfl hw⟩ <;>
                    simp only [msize, switches] <;> omega
      | skipWhileC p skipping par =>
          intro vo c2 heq
          simp only [nextF] at heq
          split at heq
          · rcases h : nextF fuel par with ⟨po, par2⟩
            rw [h] at heq
            have hp := ih par po par2 h
            cases po with
            | none =>
                simp only at heq
                cases heq
                exact ⟨by simpa [msize, switches] using hp.1, fun hw => absurd rfl hw⟩
            | some v =>
                have hplt : msize par2 < msize par := hp.2 (by simp)
                have h1 := hp.1
                by_cases hv : p v
                · simp only [hv, if_true] at heq
                  have hl := ih (MCur.skipWhileC p true par2) vo c2 heq
                  simp only [msize, switches] at hl ⊢
                  exact ⟨⟨by omega, by omega⟩, fun hw => by
                    have := hl.2 hw
                    omega⟩
                · simp only [hv, Bool.false_eq_true, if_false] at heq
                  cases heq
                  refine ⟨⟨?_, ?_⟩, fun _ => ?_⟩ <;>
                    simp only [msize, switches] <;> omega
          · rcases h : nextF fuel par with ⟨po, par2⟩
            rw [h] at heq
            have hp := ih par po par2 h
            cases po with
            | none =>
                simp only at heq
                cases heq
                exact ⟨by simpa [msize, switches] using hp.1, fun hw => absurd rfl hw⟩
            | some v =>
                have hplt : msize par2 < msize par := hp.2 (by simp)
                simp only at heq
                cases heq
                have h1 := hp.1
                refine ⟨⟨?_, ?_⟩, fun _ => ?_⟩ <;>
                  simp only [msize, switches] <;> omega
      | distinctByC key seen par =>
          intro vo c2 heq
          simp only [nextF] at heq
          rcases h : nextF fuel par with ⟨po, par2⟩
          rw [h] at heq
          have hp := ih par po par2 h
          cases po with
          | none =>
              simp only at heq
              cases heq
              exact ⟨by simpa [msize, switches] using hp.1, fun hw => absurd rfl hw⟩
          | some v =>
              have hplt : msize par2 < msize par := hp.2 (by simp)
              have h1 := hp.1
              by_cases hv : key v ∈ seen
              · simp only [hv, if_true] at heq
                have hl := ih (MCur.distinctByC key seen par2) vo c2 heq
                simp only [msize, switches] at hl ⊢
                exact ⟨⟨by omega, by omega⟩, fun hw => by
                  have := hl.2 hw
                  omega⟩
              · simp only [hv, Bool.false_eq_true, if_false] at heq
                cases heq
                refine ⟨⟨?_, ?_⟩, fun _ => ?_⟩ <;>
                  simp only [msize, switches] <;> omega
      | concatC fE par oth =>
          intro vo c2 heq
          simp only [nextF] at heq
          split at heq
          · rcases h : nextF fuel oth with ⟨po, oth2⟩
            rw [h] at heq
            have hp := ih oth po oth2 h
            have h1 := hp.1
            cases po with
            | none =>
                simp only at heq
                cases heq
                refine ⟨⟨?_, ?_⟩, fun hw => absurd rfl hw⟩ <;>
                  simp only [msize, switches] <;> omega
            | some v =>
                have hplt : msize oth2 < msize oth := hp.2 (by simp)
                simp only at heq
                cases heq
                refine ⟨⟨?_, ?_⟩, fun _ => ?_⟩ <;>
                  simp only [msize, switches] <;> omega
          · rcases h : nextF fuel par with ⟨po, par2⟩
            rw [h] at heq
            have hp := ih par po par2 h
            have h1 := hp.1
            cases po with
            | some v =>
                have hplt : msize par2 < msize par := hp.2 (by simp)
                simp only at heq
                cases heq
                refine ⟨⟨?_, ?_⟩, fun _ => ?_⟩ <;>
                  simp only [msize, switches] <;> omega
            | none =>
                rcases h2 : nextF fuel oth with ⟨qo, oth2⟩
                rw [h2] at heq
                have hp2 := ih oth qo oth2 h2
                have h12 := hp2.1
                cases qo with
                | none =>
                    simp only at heq
                    cases heq
                    refine ⟨⟨?_, ?_⟩, fun hw => absurd rfl hw⟩ <;>
                      simp only [msize, switches] <;> omega
                | some w =>
                    have hplt2 : msize oth2 < msize oth := hp2.2 (by simp)
                    simp only at heq
                    cases heq
                    refine ⟨⟨?_, ?_⟩, fun _ => ?_⟩ <;>
                      simp only [msize, switches] <;> omega
      | unionC seen started c1 c2x =>
          intro vo c2 heq
          simp only [nextF] at heq
          split at heq
          · rename_i hst
            rcases h : nextF fuel c2x with ⟨po, c22⟩
            rw [h] at heq
            have hp := ih c2x po c22 h
            have h1 := hp.1
            cases po with
            | none =>
                simp only at heq
                cases heq
                refine ⟨⟨?_, ?_⟩, fun hw => absurd rfl hw⟩ <;>
                  simp [msize, switches, hst] <;> omega
            | some v =>
                have hplt : msize c22 < msize c2x := hp.2 (by simp)
                by_cases hv : v ∈ seen
                · simp only [hv, if_true] at heq
                  have hl := ih (MCur.unionC seen true c1 c22) vo c2 heq
                  simp [msize, switches, hst] at hl ⊢
                  exact ⟨⟨by omega, by omega⟩, fun hw => by
                    have := hl.2 hw
                    omega⟩
                · simp only [hv, Bool.false_eq_true, if_false] at heq
                  cases heq
                  refine ⟨⟨?_, ?_⟩, fun _ => ?_⟩ <;>
                    simp [msize, switches, hst] <;> omega
          · rename_i hst
            rcases h : nextF fuel c1 with ⟨po, c12⟩
            rw [h] at heq
            have hp := ih c1 po c12 h
            have h1 := hp.1
            cases po with
            | none =>
                simp only at heq
                have hl := ih (MCur.unionC seen true c12 c2x) vo c2 heq
                simp [msize, switches, hst] at hl ⊢
                exact ⟨⟨by omega, by omega⟩, fun hw => by
                  have := hl.2 hw
                  omega⟩
            | some v =>
                have hplt : msize c12 < msize c1 := hp.2 (by simp)
                by_cases hv : v ∈ seen
                · simp only [hv, if_true] at heq
                  have hl := ih (MCur.unionC seen false c12 c2x) vo c2 heq
                  simp [msize, switches, hst] at hl ⊢
                  exact ⟨⟨by omega, by omega⟩, fun hw => by
                    have := hl.2 hw
                    omega⟩
                · simp only [hv, Bool.false_eq_true, if_false] at heq
                  cases heq
                  refine ⟨⟨?_, ?_⟩, fun _ => ?_⟩ <;>
                    simp [msize, switches, hst] <;> omega
      | intersectC oset seen child =>
          intro vo c2 heq
          simp only [nextF] at heq
          rcases h : nextF fuel child with ⟨po, ch2⟩
          rw [h] at heq
          have hp := ih child po ch2 h
          have h1 := hp.1
          cases po with
          | none =>
              simp only at heq
              cases heq
              exact ⟨by simpa [msize, switches] using h1, fun hw => absurd rfl hw⟩
          | some v =>
              have hplt : msize ch2 < msize child := hp.2 (by simp)
              by_cases hv : v ∈ oset
              · by_cases hs : v ∈ seen
                · simp only [hv, hs, if_true] at heq
                  have hl := ih (MCur.intersectC oset seen ch2) vo c2 heq
                  simp only [msize, switches] at hl ⊢
                  exact ⟨⟨by omega, by omega⟩, fun hw => by
                    have := hl.2 hw
                    omega⟩
                · simp only [hv, hs, if_true, Bool.false_eq_true, if_false] at heq
                  cases heq
                  refine ⟨⟨?_, ?_⟩, fun _ => ?_⟩ <;>
                    simp only [msize, switches] <;> omega
              · simp only [hv, Bool.false_eq_true, if_false] at heq
                have hl := ih (MCur.intersectC oset seen ch2) vo c2 heq
                simp only [msize, switches] at hl ⊢
                exact ⟨⟨by omega, by omega⟩, fun hw => by
                  have := hl.2 hw
                  omega⟩
      | exceptC oset seen child =>
          intro vo c2 heq
          simp only [nextF] at heq
          rcases h : nextF fuel child with ⟨po, ch2⟩
          rw [h] at heq
          have hp := ih child po ch2 h
          have h1 := hp.1
          cases po with
          | none =>
              simp only at heq
              cases heq
              exact ⟨by simpa [msize, switches] using h1, fun hw => absurd rfl hw⟩
          | some v =>
              have hplt : msize ch2 < msize child := hp.2 (by simp)
              by_cases hv : v ∈ oset
              · simp only [hv, if_true] at heq
                have hl := ih (MCur.exceptC oset seen ch2) vo c2 heq
                simp only [msize, switches] at hl ⊢
                exact ⟨⟨by omega, by omega⟩, fun hw => by
                  have := hl.2 hw
                  omega⟩
              · by_cases hs : v ∈ seen
                · simp only [hv, hs, Bool.false_eq_true, if_false, if_true] at heq
                  have hl := ih (MCur.exceptC oset seen ch2) vo c2 heq
                  simp only [msize, switches] at hl ⊢
                  exact ⟨⟨by omega, by omega⟩, fun hw => by
                    have := hl.2 hw
                    omega⟩
                · simp only [hv, hs, Bool.false_eq_true, if_false] at heq
                  cases heq
                  refine ⟨⟨?_, ?_⟩, fun _ => ?_⟩ <;>
                    simp only [msize, switches] <;> omega
      | takeOrderedC res i =>
          intro vo c2 heq
          simp only [nextF] at heq
          cases h : res.get? i with
          | none =>
              rw [h] at heq
              cases heq
              exact ⟨⟨le_refl _, le_refl _⟩, fun hw => absurd rfl hw⟩
          | some v =>
              have hi := get?_some_lt h
              rw [h] at heq
              cases heq
              refine ⟨⟨?_, ?_⟩, fun _ => ?_⟩ <;> simp [msize, switches] <;> omega

theorem drop_of_get?_some {α : Type} {l : List α} {i : Nat} {v : α}
    (h : l.get? i = some v) : l.drop i = v :: l.drop (i + 1) := by
  induction l generalizing i with
  | nil => simp at h
  | cons a t ih =>
      cases i with
      | zero =>
          simp only [List.get?] at h
          cases h
          simp
      | succ j =>
          simpa using ih (by simpa using h)

theorem nextF_cden (fuel : Nat) (c : MCur) (hb : Wm c + hgt c < fuel) :
    CdenStep c (nextF fuel c) := by
  induction fuel generalizing c with
  | zero => exact absurd hb (by omega)
  | succ fuel ih =>
      cases c with
      | fromC data i =>
          simp only [nextF]
          cases h : data.get? i with
          | none =>
              have hlen : data.length ≤ i := by
                by_contra hlt
                rw [List.get?_eq_get (by omega)] at h
                exact absurd h (by simp)
              simp [CdenStep, cden, List.drop_eq_nil_of_le, hlen]
          | some v =>
              simp only [CdenStep, cden]
              exact drop_of_get?_some h
      | rangeC st cnt i =>
          simp only [nextF]
          split
          · rename_i hi
            simp only [CdenStep, cden]
            apply drop_of_get?_some
            rw [List.get?_map, List.get?_range (by omega)]
            rfl
          · rename_i hi
            simp only [CdenStep, cden]
            constructor <;>
              · rw [List.drop_eq_nil_of_le]
                simp only [List.length_map, List.length_range]
                omega
      | emptyC => simp [nextF, CdenStep, cden]
      | whereC p par =>
          have hbp : Wm par + hgt par < fuel := by
            simp only [Wm, msize, switches, hgt] at hb ⊢
            omega
          rcases hpar : nextF fuel par with ⟨po, par2⟩
          have hcd := ih par hbp
          rw [hpar] at hcd
          have hhg : hgt par2 = hgt par := by
            have h2 := hgt_nextF fuel par
            rw [hpar] at h2
            exact h2
          have hms := msize_switches_nextF fuel par po par2 hpar
          simp only [nextF]
          rw [hpar]
          cases po with
          | none =>
              simp only [CdenStep] at hcd ⊢
              simp [cden, hcd.1, hcd.2]
          | some v =>
              simp only [CdenStep] at hcd
              by_cases hv : p v
              · simp only [hv, if_true, CdenStep, cden]
                rw [hcd, List.filter_cons, if_pos hv]
              · simp only [hv, Bool.false_eq_true, if_false]
                have hbl : Wm (MCur.whereC p par2) + hgt (MCur.whereC p par2) < fuel := by
                  have hlt := hms.2 (by simp)
                  have hle := hms.1
                  simp only [Wm, msize, switches, hgt] at hb ⊢
                  omega
                have hrec := ih (MCur.whereC p par2) hbl
                rcases hres : nextF fuel (MCur.whereC p par2) with ⟨wo, w2⟩
                rw [hres] at hrec
                cases wo with
                | none =>
                    simp only [CdenStep, cden] at hrec ⊢
                    rw [hcd, List.filter_cons, if_neg (by simp [hv])]
                    exact hrec
                | some w =>
                    simp only [CdenStep, cden] at hrec ⊢
                    rw [hcd, List.filter_cons, if_neg (by simp [hv])]
                    exact hrec
      | selectC f par =>
          have hbp : Wm par + hgt par < fuel := by
            simp only [Wm, msize, switches, hgt] at hb ⊢
            omega
          rcases hpar : nextF fuel par with ⟨po, par2⟩
          have hcd := ih par hbp
          rw [hpar] at hcd
          simp only [nextF]
          rw [hpar]
          cases po with
          | none =>
              simp only [CdenStep] at hcd ⊢
              simp [cden, hcd.1, hcd.2]
          | some v =>
              simp only [CdenStep, cden] at hcd ⊢
              rw [hcd]
              simp
      | selectIdxC f i par =>
          have hbp : Wm par + hgt par < fuel := by
            simp only [Wm, msize, switches, hgt] at hb ⊢
            omega
          rcases hpar : nextF fuel par with ⟨po, par2⟩
          have hcd := ih par hbp
          rw [hpar] at hcd
          simp only [nextF]
          rw [hpar]
          cases po with
          | none =>
              simp only [CdenStep] at hcd ⊢
              simp [cden, hcd.1, hcd.2]
          | some v =>
              simp only [CdenStep, cden] at hcd ⊢
              rw [hcd, List.mapIdx_cons]
              have hfe : (fun (j : Nat) (w : Int) => f w (i + (j + 1)))
                  = (fun (j : Nat) (w : Int) => f w ((i + 1) + j)) := by
                funext j w
                congr 1
                omega
              simp only [Nat.add_zero]
              rw [hfe]
      | takeC n cnt par =>
          simp only [nextF]
          split
          · rename_i hge
            simp only [CdenStep, cden]
            have h0 : (n - (cnt : Int)).toNat = 0 := by omega
            simp [h0]
          · rename_i hlt
            have hbp : Wm par + hgt par < fuel := by
              simp only [Wm, msize, switches, hgt] at hb ⊢
              omega
            rcases hpar : nextF fuel par with ⟨po, par2⟩
            have hcd := ih par hbp
            rw [hpar] at hcd
            cases po with
            | none =>
                simp only [CdenStep] at hcd ⊢
                simp [cden, hcd.1, hcd.2]
            | some v =>
                simp only [CdenStep, cden] at hcd ⊢
                rw [hcd]
                have hk : (n - (cnt : Int)).toNat
                    = (n - ((cnt + 1 : Nat) : Int)).toNat + 1 := by
                  push_cast
                  omega
                rw [hk, List.take_succ_cons]
      | skipC n sk par =>
          have hbp : Wm par + hgt par < fuel := by
            simp only [Wm, msize, switches, hgt] at hb ⊢
            omega
          rcases hpar : nextF fuel par with ⟨po, par2⟩
          have hcd := ih par hbp
          rw [hpar] at hcd
          have hhg : hgt par2 = hgt par := by
            have h2 := hgt_nextF fuel par
            rw [hpar] at h2
            exact h2
          have hms := msize_switches_nextF fuel par po par2 hpar
          simp only [nextF]
          split
          · rename_i hsk
            rw [hpar]
            cases po with
            | none =>
                simp only [CdenStep] at hcd ⊢
                simp [cden, hcd.1, hcd.2]
            | some v =>
                simp only [CdenStep, cden] at hcd
                have hbl : Wm (MCur.skipC n (sk + 1) par2)
                    + hgt (MCur.skipC n (sk + 1) par2) < fuel := by
                  have hlt := hms.2 (by simp)
                  have hle := hms.1
                  simp only [Wm, msize, switches, hgt] at hb ⊢
                  omega
                show CdenStep (MCur.skipC n sk par)
                  (nextF fuel (MCur.skipC n (sk + 1) par2))
                have hrec := ih (MCur.skipC n (sk + 1) par2) hbl
                rcases hres : nextF fuel (MCur.skipC n (sk + 1) par2) with ⟨wo, w2⟩
                rw [hres] at hrec
                have hceq : cden (MCur.skipC n sk par)
                    = cden (MCur.skipC n (sk + 1) par2) := by
                  simp only [cden]
                  rw [hcd]
                  have hk : (n - (sk : Int)).toNat
                      = (n - ((sk + 1 : Nat) : Int)).toNat + 1 := by
                    push_cast
                    omega
                  rw [hk, List.drop_succ_cons]
                cases wo with
                | none =>
                    simp only [CdenStep] at hrec ⊢
                    rw [hceq]
                    exact hrec
                | some w =>
                    simp only [CdenStep] at hrec ⊢
                    rw [hceq]
                    exact hrec
          · rename_i hsk
            rw [hpar]
            cases po with
            | none =>
                simp only [CdenStep] at hcd ⊢
                simp [cden, hcd.1, hcd.2]
            | some v =>
                simp only [CdenStep, cden] at hcd ⊢
                have h0 : (n - (sk : Int)).toNat = 0 := by omega
                rw [h0]
                simp [hcd]
      | takeWhileC p stopped par =>
          simp only [nextF]
          split
          · rename_i hst
            simp only [CdenStep, cden]
            simp [hst]
          · rename_i hst
            have hbp : Wm par + hgt par < fuel := by
              simp only [Wm, msize, switches, hgt] at hb ⊢
              omega
            rcases hpar : nextF fuel par with ⟨po, par2⟩
            have hcd := ih par hbp
            rw [hpar] at hcd
            cases po with
            | none =>
                simp only [CdenStep] at hcd ⊢
                simp [cden, hst, hcd.1, hcd.2]
            | some v =>
                simp only [CdenStep, cden] at hcd
                by_cases hv : p v
                · simp only [hv, if_true, CdenStep, cden]
                  simp only [hst, Bool.false_eq_true, if_false]
                  rw [hcd, List.takeWhile_cons, if_pos hv]
                · simp only [hv, Bool.false_eq_true, if_false, CdenStep, cden]
                  constructor
                  · rw [if_neg hst, hcd, List.takeWhile_cons, if_neg (by simp [hv])]
                  · simp
      | skipWhileC p skipping par =>
          have hbp : Wm par + hgt par < fuel := by
            simp only [Wm, msize, switches, hgt] at hb ⊢
            omega
          rcases hpar : nextF fuel par with ⟨po, par2⟩
          have hcd := ih par hbp
          rw [hpar] at hcd
          have hhg : hgt par2 = hgt par := by
            have h2 := hgt_nextF fuel par
            rw [hpar] at h2
            exact h2
          have hms := msize_switches_nextF fuel par po par2 hpar
          simp only [nextF]
          split
          · rename_i hsk
            rw [hpar]
            cases po with
            | none =>
                simp only [CdenStep] at hcd ⊢
                simp [cden, hsk, hcd.1, hcd.2]
            | some v =>
                simp only [CdenStep, cden] at hcd
                by_cases hv : p v
                · simp only [hv, if_true]
                  have hbl : Wm (MCur.skipWhileC p true par2)
                      + hgt (MCur.skipWhileC p true par2) < fuel := by
                    have hlt := hms.2 (by simp)
                    have hle := hms.1
                    simp only [Wm, msize, switches, hgt] at hb ⊢
                    omega
                  have hrec := ih (MCur.skipWhileC p true par2) hbl
                  rcases hres : nextF fuel (MCur.skipWhileC p true par2) with ⟨wo, w2⟩
                  rw [hres] at hrec
                  have hceq : cden (MCur.skipWhileC p skipping par)
                      = cden (MCur.skipWhileC p true par2) := by
                    simp only [cden, hsk, if_true]
                    rw [hcd, List.dropWhile_cons, if_pos hv]
                  cases wo with
                  | none =>
                      simp only [CdenStep] at hrec ⊢
                      rw [hceq]
                      exact hrec
                  | some w =>
                      simp only [CdenStep] at hrec ⊢
                      rw [hceq]
                      exact hrec
                · simp only [hv, Bool.false_eq_true, if_false, CdenStep, cden]
                  simp only [hsk, if_true, Bool.false_eq_true, if_false]
                  rw [hcd, List.dropWhile_cons, if_neg (by simp [hv])]
          · rename_i hsk
            rw [hpar]
            cases po with
            | none =>
                simp only [CdenStep] at hcd ⊢
                have hskF : skipping = false := by
                  cases skipping
                  · rfl
                  · exact absurd rfl hsk
                simp [cden, hskF, hcd.1, hcd.2]
            | some v =>
                simp only [CdenStep, cden] at hcd ⊢
                have hskF : skipping = false := by
                  cases skipping
                  · rfl
                  · exact absurd rfl hsk
                simp only [hskF, Bool.false_eq_true, if_false]
                exact hcd
      | distinctByC key seen par =>
          have hbp : Wm par + hgt par < fuel := by
            simp only [Wm, msize, switches, hgt] at hb ⊢
            omega
          rcases hpar : nextF fuel par with ⟨po, par2⟩
          have hcd := ih par hbp
          rw [hpar] at hcd
          have hhg : hgt par2 = hgt par := by
            have h2 := hgt_nextF fuel par
            rw [hpar] at h2
            exact h2
          have hms := msize_switches_nextF fuel par po par2 hpar
          simp only [nextF]
          rw [hpar]
          cases po with
          | none =>
              simp only [CdenStep] at hcd ⊢
              simp [cden, glinq.dedupByLoop, hcd.1, hcd.2]
          | some v =>
              simp only [CdenStep, cden] at hcd
              by_cases hv : key v ∈ seen
              · simp only [hv, if_true]
                have hbl : Wm (MCur.distinctByC key seen par2)
                    + hgt (MCur.distinctByC key seen par2) < fuel := by
                  have hlt := hms.2 (by simp)
                  have hle := hms.1
                  simp only [Wm, msize, switches, hgt] at hb ⊢
                  omega
                have hrec := ih (MCur.distinctByC key seen par2) hbl
                rcases hres : nextF fuel (MCur.distinctByC key seen par2) with ⟨wo, w2⟩
                rw [hres] at hrec
                have hceq : cden (MCur.distinctByC key seen par)
                    = cden (MCur.distinctByC key seen par2) := by
                  simp only [cden]
                  rw [hcd]
                  simp [glinq.dedupByLoop, hv]
                cases wo with
                | none =>
                    simp only [CdenStep] at hrec ⊢
                    rw [hceq]
                    exact hrec
                | some w =>
                    simp only [CdenStep] at hrec ⊢
                    rw [hceq]
                    exact hrec
              · simp only [hv, Bool.false_eq_true, if_false, CdenStep, cden]
                rw [hcd]
                simp [glinq.dedupByLoop, hv]
      | concatC fE par oth =>
          simp only [nextF]
          split
          · rename_i hfE
            have hbo : Wm oth + hgt oth < fuel := by
              simp only [Wm, msize, switches, hgt] at hb ⊢
              omega
            rcases hoth : nextF fuel oth with ⟨qo, oth2⟩
            have hcdo := ih oth hbo
            rw [hoth] at hcdo
            cases qo with
            | none =>
                simp only [CdenStep] at hcdo ⊢
                simp [cden, hfE, hcdo.1, hcdo.2]
            | some w =>
                simp only [CdenStep, cden] at hcdo ⊢
                simp only [hfE, if_true]
                rw [hcdo]
                simp
          · rename_i hfE
            have hfEF : fE = false := by
              cases fE
              · rfl
              · exact absurd rfl hfE
            have hbp : Wm par + hgt par < fuel := by
              simp only [Wm, msize, switches, hgt] at hb ⊢
              omega
            rcases hpar : nextF fuel par with ⟨po, par2⟩
            have hcd := ih par hbp
            rw [hpar] at hcd
            cases po with
            | some v =>
                simp only [CdenStep, cden] at hcd ⊢
                simp only [hfEF, Bool.false_eq_true, if_false]
                rw [hcd]
                simp
            | none =>
                simp only [CdenStep] at hcd
                have hbo : Wm oth + hgt oth < fuel := by
                  simp only [Wm, msize, switches, hgt] at hb ⊢
                  omega
                rcases hoth : nextF fuel oth with ⟨qo, oth2⟩
                have hcdo := ih oth hbo
                rw [hoth] at hcdo
                cases qo with
                | none =>
                    simp only [CdenStep] at hcdo ⊢
                    simp [cden, hfEF, hcd.1, hcd.2, hcdo.1, hcdo.2]
                | some w =>
                    simp only [CdenStep, cden] at hcdo ⊢
                    simp only [hfEF, Bool.false_eq_true, if_false, if_true]
                    rw [hcd.1, hcdo]
                    simp
      | unionC seen started c1 c2x =>
          simp only [nextF]
          split
          · rename_i hst
            have hb2 : Wm c2x + hgt c2x < fuel := by
              simp only [Wm, msize, switches, hgt] at hb ⊢
              omega
            rcases h2 : nextF fuel c2x with ⟨qo, c22⟩
            have hcd2 := ih c2x hb2
            rw [h2] at hcd2
            have hhg2 : hgt c22 = hgt c2x := by
              have hx := hgt_nextF fuel c2x
              rw [h2] at hx
              exact hx
            have hms2 := msize_switches_nextF fuel c2x qo c22 h2
            cases qo with
            | none =>
                simp only [CdenStep] at hcd2 ⊢
                simp [cden, hst, hcd2.1, hcd2.2, glinq.dedupByLoop]
            | some v =>
                simp only [CdenStep, cden] at hcd2
                by_cases hv : v ∈ seen
                · simp only [hv, if_true]
                  have hbl : Wm (MCur.unionC seen true c1 c22)
                      + hgt (MCur.unionC seen true c1 c22) < fuel := by
                    have hlt := hms2.2 (by simp)
                    have hle := hms2.1
                    simp [Wm, msize, switches, hgt, hst] at hb ⊢
                    omega
                  have hrec := ih (MCur.unionC seen true c1 c22) hbl
                  rcases hres : nextF fuel (MCur.unionC seen true c1 c22) with ⟨wo, w2⟩
                  rw [hres] at hrec
                  have hceq : cden (MCur.unionC seen started c1 c2x)
                      = cden (MCur.unionC seen true c1 c22) := by
                    simp only [cden, hst, if_true]
                    rw [hcd2]
                    simp [glinq.dedupByLoop, hv]
                  cases wo with
                  | none =>
                      simp only [CdenStep] at hrec ⊢
                      rw [hceq]
                      exact hrec
                  | some w =>
                      simp only [CdenStep] at hrec ⊢
                      rw [hceq]
                      exact hrec
                · simp only [hv, Bool.false_eq_true, if_false, CdenStep, cden]
                  simp only [hst, if_true]
                  rw [hcd2]
                  simp [glinq.dedupByLoop, hv]
          · rename_i hst
            have hstF : started = false := by
              cases started
              · rfl
              · exact absurd rfl hst
            have hb1 : Wm c1 + hgt c1 < fuel := by
              simp only [Wm, msize, switches, hgt, hstF] at hb ⊢
              omega
            rcases h1 : nextF fuel c1 with ⟨po, c12⟩
            have hcd1 := ih c1 hb1
            rw [h1] at hcd1
            have hhg1 : hgt c12 = hgt c1 := by
              have hx := hgt_nextF fuel c1
              rw [h1] at hx
              exact hx
            have hms1 := msize_switches_nextF fuel c1 po c12 h1
            cases po with
            | none =>
                simp only [CdenStep] at hcd1
                have hbl : Wm (MCur.unionC seen true c12 c2x)
                    + hgt (MCur.unionC seen true c12 c2x) < fuel := by
                  have hle := hms1.1
                  simp [Wm, msize, switches, hgt, hstF] at hb ⊢
                  omega
                show CdenStep (MCur.unionC seen started c1 c2x)
                  (nextF fuel (MCur.unionC seen true c12 c2x))
                have hrec := ih (MCur.unionC seen true c12 c2x) hbl
                rcases hres : nextF fuel (MCur.unionC seen true c12 c2x) with ⟨wo, w2⟩
                rw [hres] at hrec
                have hceq : cden (MCur.unionC seen started c1 c2x)
                    = cden (MCur.unionC seen true c12 c2x) := by
                  simp [cden, hstF, hcd1.1]
                cases wo with
                | none =>
                    simp only [CdenStep] at hrec ⊢
                    rw [hceq]
                    exact hrec
                | some w =>
                    simp only [CdenStep] at hrec ⊢
                    rw [hceq]
                    exact hrec
            | some v =>
                simp only [CdenStep, cden] at hcd1
                by_cases hv : v ∈ seen
                · simp only [hv, if_true]
                  have hbl : Wm (MCur.unionC seen false c12 c2x)
                      + hgt (MCur.unionC seen false c12 c2x) < fuel := by
                    have hlt := hms1.2 (by simp)
                    have hle := hms1.1
                    simp [Wm, msize, switches, hgt, hstF] at hb ⊢
                    omega
                  have hrec := ih (MCur.unionC seen false c12 c2x) hbl
                  rcases hres : nextF fuel (MCur.unionC seen false c12 c2x) with ⟨wo, w2⟩
                  rw [hres] at hrec
                  have hceq : cden (MCur.unionC seen started c1 c2x)
                      = cden (MCur.unionC seen false c12 c2x) := by
                    simp only [cden, hstF, Bool.false_eq_true, if_false]
                    rw [hcd1]
                    simp [glinq.dedupByLoop, hv]
                  cases wo with
                  | none =>
                      simp only [CdenStep] at hrec ⊢
                      rw [hceq]
                      exact hrec
                  | some w =>
                      simp only [CdenStep] at hrec ⊢
                      rw [hceq]
                      exact hrec
                · simp only [hv, Bool.false_eq_true, if_false, CdenStep, cden]
                  simp only [hstF, Bool.false_eq_true, if_false]
                  rw [hcd1]
                  simp [glinq.dedupByLoop, hv]
      | intersectC oset seen child =>
          have hbp : Wm child + hgt child < fuel := by
            simp only [Wm, msize, switches, hgt] at hb ⊢
            omega
          rcases hch : nextF fuel child with ⟨po, ch2⟩
          have hcd := ih child hbp
          rw [hch] at hcd
          have hhg : hgt ch2 = hgt child := by
            have h2 := hgt_nextF fuel child
            rw [hch] at h2
            exact h2
          have hms := msize_switches_nextF fuel child po ch2 hch
          simp only [nextF]
          rw [hch]
          cases po with
          | none =>
              simp only [CdenStep] at hcd ⊢
              simp [cden, glinq.dedupByLoop, hcd.1, hcd.2]
          | some v =>
              simp only [CdenStep, cden] at hcd
              have hbl : Wm (MCur.intersectC oset seen ch2)
                  + hgt (MCur.intersectC oset seen ch2) < fuel := by
                have hlt := hms.2 (by simp)
                have hle := hms.1
                simp only [Wm, msize, switches, hgt] at hb ⊢
                omega
              by_cases hv : v ∈ oset
              · by_cases hs : v ∈ seen
                · simp only [hv, hs, if_true]
                  have hrec := ih (MCur.intersectC oset seen ch2) hbl
                  rcases hres : nextF fuel (MCur.intersectC oset seen ch2) with ⟨wo, w2⟩
                  rw [hres] at hrec
                  have hceq : cden (MCur.intersectC oset seen child)
                      = cden (MCur.intersectC oset seen ch2) := by
                    simp only [cden]
                    rw [hcd, List.filter_cons, if_pos (by simpa using hv)]
                    simp [glinq.dedupByLoop, hs]
                  cases wo with
                  | none =>
                      simp only [CdenStep] at hrec ⊢
                      rw [hceq]
                      exact hrec
                  | some w =>
                      simp only [CdenStep] at hrec ⊢
                      rw [hceq]
                      exact hrec
                · simp only [hv, hs, if_true, Bool.false_eq_true, if_false,
                    CdenStep, cden]
                  rw [hcd, List.filter_cons, if_pos (by simpa using hv)]
                  simp [glinq.dedupByLoop, hs]
              · simp only [hv, Bool.false_eq_true, if_false]
                have hrec := ih (MCur.intersectC oset seen ch2) hbl
                rcases hres : nextF fuel (MCur.intersectC oset seen ch2) with ⟨wo, w2⟩
                rw [hres] at hrec
                have hceq : cden (MCur.intersectC oset seen child)
                    = cden (MCur.intersectC oset seen ch2) := by
                  simp only [cden]
                  rw [hcd, List.filter_cons, if_neg (by simpa using hv)]
                cases wo with
                | none =>
                    simp only [CdenStep] at hrec ⊢
                    rw [hceq]
                    exact hrec
                | some w =>
                    simp only [CdenStep] at hrec ⊢
                    rw [hceq]
                    exact hrec
      | exceptC oset seen child =>
          have hbp : Wm child + hgt child < fuel := by
            simp only [Wm, msize, switches, hgt] at hb ⊢
            omega
          rcases hch : nextF fuel child with ⟨po, ch2⟩
          have hcd := ih child hbp
          rw [hch] at hcd
          have hhg : hgt ch2 = hgt child := by
            have h2 := hgt_nextF fuel child
            rw [hch] at h2
            exact h2
          have hms := msize_switches_nextF fuel child po ch2 hch
          simp only [nextF]
          rw [hch]
          cases po with
          | none =>
              simp only [CdenStep] at hcd ⊢
              simp [cden, glinq.dedupByLoop, hcd.1, hcd.2]
          | some v =>
              simp only [CdenStep, cden] at hcd
              have hbl : Wm (MCur.exceptC oset seen ch2)
                  + hgt (MCur.exceptC oset seen ch2) < fuel := by
                have hlt := hms.2 (by simp)
                have hle := hms.1
                simp only [Wm, msize, switches, hgt] at hb ⊢
                omega
              by_cases hv : v ∈ oset
              · simp only [hv, if_true]
                have hrec := ih (MCur.exceptC oset seen ch2) hbl
                rcases hres : nextF fuel (MCur.exceptC oset seen ch2) with ⟨wo, w2⟩
                rw [hres] at hrec
                have hceq : cden (MCur.exceptC oset seen child)
                    = cden (MCur.exceptC oset seen ch2) := by
                  simp only [cden]
                  rw [hcd, List.filter_cons, if_neg (by simpa using hv)]
                cases wo with
                | none =>
                    simp only [CdenStep] at hrec ⊢
                    rw [hceq]
                    exact hrec
                | some w =>
                    simp only [CdenStep] at hrec ⊢
                    rw [hceq]
                    exact hrec
              · by_cases hs : v ∈ seen
                · simp only [hv, hs, Bool.false_eq_true, if_false, if_true]
                  have hrec := ih (MCur.exceptC oset seen ch2) hbl
                  rcases hres : nextF fuel (MCur.exceptC oset seen ch2) with ⟨wo, w2⟩
                  rw [hres] at hrec
                  have hceq : cden (MCur.exceptC oset seen child)
                      = cden (MCur.exceptC oset seen ch2) := by
                    simp only [cden]
                    rw [hcd, List.filter_cons, if_pos (by simpa using hv)]
                    simp [glinq.dedupByLoop, hs]
                  cases wo with
                  | none =>
                      simp only [CdenStep] at hrec ⊢
                      rw [hceq]
                      exact hrec
                  | some w =>
                      simp only [CdenStep] at hrec ⊢
                      rw [hceq]
                      exact hrec
                · simp only [hv, hs, Bool.false_eq_true, if_false, CdenStep, cden]
                  rw [hcd, List.filter_cons, if_pos (by simpa using hv)]
                  simp [glinq.dedupByLoop, hs]
      | takeOrderedC res i =>
          simp only [nextF]
          cases h : res.get? i with
          | none =>
              have hlen : res.length ≤ i := by
                by_contra hlt
                rw [List.get?_eq_get (by omega)] at h
                exact absurd h (by simp)
              simp [CdenStep, cden, List.drop_eq_nil_of_le, hlen]
          | some v =>
              simp only [CdenStep, cden]
              exact drop_of_get?_some h

theorem next_cden (c : MCur) : CdenStep c (next c) :=
  nextF_cden (Wm c + hgt c + 1) c (by omega)

theorem cden_empty_next (d : MCur) (hd : cden d = []) :
    (next d).1 = none ∧ cden (next d).2 = [] := by
  have h := next_cden d
  rcases hn : next d with ⟨vo, d2⟩
  rw [hn] at h
  cases vo with
  | some v =>
      simp only [CdenStep] at h
      rw [hd] at h
      exact absurd h (by simp)
  | none =>
      simp only [CdenStep] at h
      exact ⟨rfl, h.2⟩

theorem stepN_cden_empty (k : Nat) (d : MCur) (hd : cden d = []) :
    cden (stepN k d) = [] := by
  induction k generalizing d with
  | zero => exact hd
  | succ j ih =>
      show cden (stepN j (next d).2) = []
      exact ih (next d).2 (cden_empty_next d hd).2

/-- C9: pull-function exhaustion is permanent.  For every cursor state of
the modelled leaf and operator pull closures (From, Range, Empty, Where,
Select, SelectWithIndex, Take, Skip, TakeWhile, SkipWhile, DistinctBy,
Concat, Union, Intersect, Except, and the TakeOrderedBy output iterator),
once one call of `next` has answered (_, false), every subsequent call on
the threaded state answers (_, false) as well — no resurrection and no
re-initialization, even when (as in TakeWhile) the cursor below still
holds further elements. -/
theorem C9_pull_exhaustion_permanent (c : MCur) (h : (next c).1 = none)
    (k : Nat) : (next (stepN k (next c).2)).1 = none := by
  have h0 : cden (next c).2 = [] := by
    have hc := next_cden c
    rcases hn : next c with ⟨vo, c2⟩
    rw [hn] at hc h
    cases vo with
    | some v => exact absurd h (by simp)
    | none =>
        simp only [CdenStep] at hc
        simpa using hc.2
  exact (cden_empty_next _ (stepN_cden_empty k (next c).2 h0)).1

/-- A TakeWhile cursor whose first pull hits a failing element: it answers
(_, false) while its parent still holds the elements 1 and 2. -/
theorem C9_pull_exhaustion_permanent_witness :
    (next (MCur.takeWhileC (fun x => decide (x < 3)) false
        (MCur.fromC [5, 1, 2] 0))).1 = none ∧
      (next (stepN 2 (next (MCur.takeWhileC (fun x => decide (x < 3)) false
        (MCur.fromC [5, 1, 2] 0))).2)).1 = none :=
  ⟨by decide,
    C9_pull_exhaustion_permanent
      (MCur.takeWhileC (fun x => decide (x < 3)) false (MCur.fromC [5, 1, 2] 0))
      (by decide) 2⟩

theorem drainF_cden (fuel : Nat) (c : MCur) (hb : Wm c < fuel) :
    (drainF fuel c).1 = cden c := by
  induction fuel generalizing c with
  | zero => exact absurd hb (by omega)
  | succ fuel ih =>
      simp only [drainF]
      have hc := next_cden c
      rcases hn : next c with ⟨vo, c2⟩
      rw [hn] at hc
      cases vo with
      | none =>
          simp only [CdenStep] at hc
          simp [hc.1]
      | some v =>
          simp only [CdenStep] at hc
          have hn2 : nextF (Wm c + hgt c + 1) c = (some v, c2) := hn
          have hms := msize_switches_nextF (Wm c + hgt c + 1) c (some v) c2 hn2
          have hlt : msize c2 < msize c := hms.2 (by simp)
          have hle := hms.1
          have hl : (drainF fuel c2).1 = cden c2 := by
            refine ih c2 ?_
            simp only [Wm] at hb ⊢
            omega
          show (v :: (drainF fuel c2).1, (drainF fuel c2).2).1 = cden c
          rw [hc, hl]

theorem drain_fst (c : MCur) : (drain c).1 = cden c :=
  drainF_cden (Wm c + 1) c (by omega)

theorem cden_initCur (p : MPipe) : cden (initCur p) = mEval p := by
  induction p with
  | fromP data => simp [initCur, cden, mEval]
  | rangeP st c => simp [initCur, cden, mEval]
  | emptyP => rfl
  | whereP p q ihq => simp [initCur, cden, mEval, ihq]
  | selectP f q ihq => simp [initCur, cden, mEval, ihq]
  | selectIdxP f q ihq => simp [initCur, cden, mEval, ihq, Nat.zero_add]
  | takeP n q ihq => simp [initCur, cden, mEval, ihq]
  | skipP n q ihq => simp [initCur, cden, mEval, ihq]
  | takeWhileP p q ihq => simp [initCur, cden, mEval, ihq]
  | skipWhileP p q ihq => simp [initCur, cden, mEval, ihq]
  | distinctByP k q ihq => simp [initCur, cden, mEval, ihq]

/-- C2 amended: re-traversability holds for pipelines of leaf constructors
and method operators, whose constructors capture the parent's traversal
factory and whose per-traversal state is rebuilt freshly on every
traversal: the node value holds no mutable state the ToSlice path reads,
so two ToSlice calls both produce the node's denotation.  (It fails for
the Enumerable-consuming free functions and Concat's second argument; see
the counterexample.) -/
theorem C2_retraversability_amended (p : MPipe) :
    (toSliceTwiceM p).1 = (toSliceTwiceM p).2 ∧ (toSliceTwiceM p).1 = mEval p := by
  refine ⟨rfl, ?_⟩
  show toSliceM p = mEval p
  exact (drain_fst (initCur p)).trans (cden_initCur p)

/-- C2 counterexample: Union is not re-traversable.  The first ToSlice of
Union(From [1,2,3], From [3,4,5]) yields [1,2,3,4,5]; the factory's
seen-set and phase flag are fresh per traversal (set.go 55-58), but the
argument streams' iterators persist (stream.go 358-364), so the second
ToSlice finds both exhausted and yields []. -/
theorem C2_retraversability_cex :
    (drain (unionFactory (MCur.fromC [1, 2, 3] 0) (MCur.fromC [3, 4, 5] 0))).1
        = [1, 2, 3, 4, 5] ∧
      (drain (unionFactory
        (unionChildren (drain (unionFactory (MCur.fromC [1, 2, 3] 0)
          (MCur.fromC [3, 4, 5] 0))).2).1
        (unionChildren (drain (unionFactory (MCur.fromC [1, 2, 3] 0)
          (MCur.fromC [3, 4, 5] 0))).2).2)).1 = [] ∧
      ([1, 2, 3, 4, 5] : List Int) ≠ [] := by
  refine ⟨by decide, by decide, by decide⟩
